import Mathlib

/-!
Verification of the `ainotes` knowledge-graph engine.

Shallow embedding of the core data model and operations of the repository:
`ainotes/models.py`, `ainotes/graph/builder.py`, `ainotes/parser/links.py`,
`ainotes/parser/markdown.py`, `ainotes/cache/manager.py`,
`ainotes/search/engine.py`, `ainotes/graph/algorithms.py`.

Conventions of the embedding:
* File paths are `String`s; Python `dict`s (insertion ordered, unique keys)
  are association lists `List (String × α)` with insert-or-replace semantics.
* Python `float` scores and centrality values are modelled as `ℚ`
  (the code only adds, multiplies by small constants, and compares them).
* Modification timestamps are modelled as `Nat` (only equality is used).
* I/O-dependent pieces (the markdown parser, the link-resolution strategy
  search over the file system, the networkx `pagerank` call) enter the
  builder exactly as they do in the source — through `self.parser`,
  `self.link_resolver` and `networkx` — and are therefore parameters of the
  embedded builder (`BuildEnv`).  Facts about the real resolver that a
  theorem needs are stated as hypotheses and discharged by the embedded
  `resolve_link` below.
-/

/-- `models.LinkType` -/
inductive LinkType
  | wiki
  | markdown
  | tag
deriving DecidableEq, Repr

/-- `models.Link` -/
structure Link where
  source_path : String
  target_path : Option String
  link_type : LinkType
  link_text : String
  context : String
  line_number : Nat
  is_broken : Bool
deriving DecidableEq, Repr

/-- `models.Heading` -/
structure Heading where
  level : Nat
  text : String
  line_number : Nat
  slug : String
deriving DecidableEq, Repr

/-- `models.Note`.  The `frontmatter` dictionary of the source is not used by
any operation modelled here and is omitted; `tags` (a Python `set`) is a
duplicate-free list. -/
structure Note where
  path : String
  relative_path : String
  title : String
  headings : List Heading
  outgoing_links : List Link
  tags : List String
  last_modified : Option Nat
  word_count : Nat
deriving DecidableEq, Repr

/-- `models.GraphNode` -/
structure GraphNode where
  note : Note
  incoming_links : List Link
  in_degree : Nat
  out_degree : Nat
  cluster_id : Option Nat
  centrality_score : ℚ
deriving DecidableEq, Repr

/-- `GraphNode(note=note)` with the dataclass defaults. -/
def GraphNode.mk0 (note : Note) : GraphNode :=
  { note := note
    incoming_links := []
    in_degree := 0
    out_degree := 0
    cluster_id := none
    centrality_score := 0 }

/-- `models.KnowledgeGraph`.  Clusters (`List[Set[str]]` in the source) are
lists of paths. -/
structure KnowledgeGraph where
  nodes : List (String × GraphNode)
  clusters : List (List String)
  hub_nodes : List String
  orphan_nodes : List String
  broken_links : List Link
  last_updated : Option Nat
deriving DecidableEq, Repr

/-- `models.SearchResult` -/
structure SearchResult where
  note_path : String
  score : ℚ
  match_type : String
  context : Option String
  line_number : Option Nat
  graph_node : Option GraphNode
deriving DecidableEq, Repr

/-! ### Python-dict semantics on association lists -/

/-- `d[k]` / `d.get(k)`: value of the first (unique) entry with key `k`. -/
def dictLookup (d : List (String × α)) (k : String) : Option α :=
  (d.find? (fun p => p.1 == k)).map (·.2)

/-- `k in d` -/
def dictContains (d : List (String × α)) (k : String) : Bool :=
  d.any (fun p => p.1 == k)

/-- `d[k] = v`: replace in place if the key exists, else append. -/
def dictInsert (d : List (String × α)) (k : String) (v : α) : List (String × α) :=
  if dictContains d k then
    d.map (fun p => if p.1 == k then (k, v) else p)
  else
    d ++ [(k, v)]

/-- `del d[k]` -/
def dictErase (d : List (String × α)) (k : String) : List (String × α) :=
  d.filter (fun p => !(p.1 == k))

/-- `d.update(new)` -/
def dictUpdate (d new : List (String × α)) : List (String × α) :=
  new.foldl (fun acc p => dictInsert acc p.1 p.2) d

/-- In-place mutation of the value stored at key `k`. -/
def dictModify (d : List (String × α)) (k : String) (f : α → α) : List (String × α) :=
  d.map (fun p => if p.1 == k then (p.1, f p.2) else p)

/-! ### Link resolution (`parser/links.py`)

`LinkResolver.resolve_link` (lines 44–59) dispatches on the link type to the
wiki / markdown strategy search and then fills `target_path` / `is_broken`.
The two strategy searches walk the file-stem index and the file system; they
enter the embedding as parameters, together with the file-existence test
`fsExists` used by line 57 (`not target_path.exists()`). -/

/-- `LinkResolver.resolve_link`. -/
def resolve_link (fsExists : String → Bool)
    (wikiStrategy markdownStrategy : String → String → Option String)
    (link : Link) : Link :=
  let target : Option String :=
    match link.link_type with
    | LinkType.wiki => wikiStrategy link.link_text link.source_path
    | LinkType.markdown => markdownStrategy link.link_text link.source_path
    | LinkType.tag => none
  { link with
      target_path := target
      is_broken :=
        match target with
        | none => true
        | some t => !fsExists t }

/-! ### Graph construction (`graph/builder.py`)

The builder owns a `MarkdownParser` and a `LinkResolver`; in the embedding
they are the `parse` and `resolve` fields of a `BuildEnv`.  `parse fp = none`
models a per-file parse failure (logged and skipped, builder.py lines 43–45).
`pagerank` models the `networkx.pagerank` call of `_calculate_centrality`
(`none` models the exception branch that falls back to degree centrality),
and `now` models `datetime.now()`. -/

structure BuildEnv where
  parse : String → Option Note
  resolve : Link → Link
  pagerank : List String → List (String × String) → Option (List (String × ℚ))
  now : Nat

/-- `resolve_link` mutates the `Link` objects held by `note.outgoing_links`
in place; the note stored in the builder's `notes` dict therefore carries the
resolved links. -/
def resolvedNote (resolve : Link → Link) (n : Note) : Note :=
  { n with outgoing_links := n.outgoing_links.map resolve }

/-- The `notes` dict accumulated by the parse loop of `build_graph`
(builder.py lines 30–45): `notes[note.path] = note`, skipping files that
fail to parse. -/
def buildNotesDict (parse : String → Option Note) (resolve : Link → Link) :
    List String → List (String × Note) → List (String × Note)
  | [], acc => acc
  | fp :: rest, acc =>
    match parse fp with
    | none => buildNotesDict parse resolve rest acc
    | some n => buildNotesDict parse resolve rest (dictInsert acc n.path (resolvedNote resolve n))

/-- The `all_links` list accumulated by the same loop: every outgoing link of
every successfully parsed file, resolved. -/
def allLinks (parse : String → Option Note) (resolve : Link → Link) : List String → List Link
  | [] => []
  | fp :: rest =>
    (match parse fp with
     | none => []
     | some n => n.outgoing_links.map resolve) ++ allLinks parse resolve rest

/-- Condition of builder.py line 55:
`link.is_broken or link.target_path not in graph_nodes`
(a `None` target is never a key of a string-keyed dict). -/
def linkUnresolvedIn (nodes : List (String × GraphNode)) (link : Link) : Bool :=
  link.is_broken ||
    match link.target_path with
    | none => true
    | some t => !dictContains nodes t

def appendIncoming (link : Link) (gn : GraphNode) : GraphNode :=
  { gn with incoming_links := gn.incoming_links ++ [link] }

/-- The link loop of `build_graph` (lines 53–61): broken or unresolvable
links are collected into `broken_links`; every other link is appended to its
target node's `incoming_links`. -/
def processLinks :
    List (String × GraphNode) → List Link → List (String × GraphNode) × List Link
  | nodes, [] => (nodes, [])
  | nodes, link :: rest =>
    if linkUnresolvedIn nodes link then
      let r := processLinks nodes rest
      (r.1, link :: r.2)
    else
      processLinks (dictModify nodes (link.target_path.getD "") (appendIncoming link)) rest

/-- Lines 63–66: `in_degree = len(incoming_links)`,
`out_degree = len(note.outgoing_links)` for every node. -/
def setDegrees (nodes : List (String × GraphNode)) : List (String × GraphNode) :=
  nodes.map (fun p => (p.1,
    { p.2 with
        in_degree := p.2.incoming_links.length
        out_degree := p.2.note.outgoing_links.length }))

/-- `_build_networkx_graph` edges (lines 105–108): one directed edge per
non-broken link whose target is a node key. -/
def nxEdges (nodes : List (String × GraphNode)) (links : List Link) : List (String × String) :=
  links.filterMap (fun l =>
    match l.target_path with
    | some t => if !l.is_broken && dictContains nodes t then some (l.source_path, t) else none
    | none => none)

/-! Connected components of the undirected projection, modelling
`graph.to_undirected()` + `networkx.connected_components` used by
`_detect_clusters` (builder.py lines 112–132): a partition of the node set
(plus any edge endpoints) into undirected connected components, maintained
by union-style merging. -/

def ccAddNode (comps : List (List String)) (v : String) : List (List String) :=
  if comps.any (fun c => c.contains v) then comps else comps ++ [[v]]

def ccFind (comps : List (List String)) (v : String) : List String :=
  (comps.find? (fun c => c.contains v)).getD [v]

def ccAddEdge (comps : List (List String)) (a b : String) : List (List String) :=
  let comps1 := ccAddNode (ccAddNode comps a) b
  let ca := ccFind comps1 a
  if ca.contains b then comps1
  else
    let cb := ccFind comps1 b
    (comps1.filter (fun c => !(c == ca || c == cb))) ++ [ca ++ cb]

def connectedComponents (nodes : List String) (edges : List (String × String)) :
    List (List String) :=
  edges.foldl (fun comps e => ccAddEdge comps e.1 e.2) (nodes.foldl ccAddNode [])

/-- `_detect_clusters`: connected components of the undirected projection,
singleton components discarded (lines 123–127). -/
def detectClusters (nodes : List String) (edges : List (String × String)) :
    List (List String) :=
  (connectedComponents nodes edges).filter (fun c => 1 < c.length)

/-- Lines 75–78: write each cluster's index into its members' `cluster_id`. -/
def assignClusters (nodes : List (String × GraphNode)) (clusters : List (List String)) :
    List (String × GraphNode) :=
  clusters.enum.foldl
    (fun acc p =>
      p.2.foldl
        (fun acc2 path =>
          if dictContains acc2 path then
            dictModify acc2 path (fun gn => { gn with cluster_id := some p.1 })
          else acc2)
        acc)
    nodes

/-- The degree-centrality fallback of `_calculate_centrality`
(lines 148–152). -/
def degreeFallback (nodes : List (String × GraphNode)) : List (String × GraphNode) :=
  nodes.map (fun p => (p.1,
    { p.2 with centrality_score :=
        (p.2.in_degree + p.2.out_degree : ℚ) / ((max 1 (nodes.length - 1) : ℕ) : ℚ) }))

/-- `_calculate_centrality` (lines 134–152). -/
def calculateCentrality
    (pagerank : List String → List (String × String) → Option (List (String × ℚ)))
    (nodeIds : List String) (edges : List (String × String))
    (nodes : List (String × GraphNode)) : List (String × GraphNode) :=
  if nodeIds.length = 0 then nodes
  else
    match pagerank nodeIds edges with
    | some scores =>
        scores.foldl
          (fun acc p =>
            if dictContains acc p.1 then
              dictModify acc p.1 (fun gn => { gn with centrality_score := p.2 })
            else acc)
          nodes
    | none => degreeFallback nodes

/-- Sort key of `_find_hub_nodes` (line 160), with `reverse=True`:
`a` may precede `b` iff `b`'s `(degree, centrality)` pair is
lexicographically ≤ `a`'s. -/
def hubRel (a b : String × GraphNode) : Prop :=
  b.2.in_degree + b.2.out_degree < a.2.in_degree + a.2.out_degree ∨
    (b.2.in_degree + b.2.out_degree = a.2.in_degree + a.2.out_degree ∧
      b.2.centrality_score ≤ a.2.centrality_score)

instance : DecidableRel hubRel := fun a b => by unfold hubRel; infer_instance

/-- `_find_hub_nodes` (lines 154–170). -/
def findHubNodes (nodes : List (String × GraphNode)) (top_n : Nat := 10) : List String :=
  let sorted_nodes := List.insertionSort hubRel nodes
  ((sorted_nodes.take top_n).filter (fun p => 2 ≤ p.2.in_degree + p.2.out_degree)).map (·.1)

/-- `_find_orphan_nodes` (lines 172–178). -/
def findOrphanNodes (nodes : List (String × GraphNode)) : List String :=
  (nodes.filter (fun p => p.2.in_degree == 0 && p.2.out_degree == 0)).map (·.1)

/-- `GraphBuilder.build_graph` (builder.py lines 21–94). -/
def buildGraph (env : BuildEnv) (file_paths : List String) : KnowledgeGraph :=
  let notes := buildNotesDict env.parse env.resolve file_paths []
  let links := allLinks env.parse env.resolve file_paths
  let graph_nodes0 := notes.map (fun p => (p.1, GraphNode.mk0 p.2))
  let pr := processLinks graph_nodes0 links
  let withDeg := setDegrees pr.1
  let nodeIds := withDeg.map (·.1)
  let edges := nxEdges withDeg links
  let clusters := detectClusters nodeIds edges
  let withClus := assignClusters withDeg clusters
  let withCent := calculateCentrality env.pagerank nodeIds edges withClus
  { nodes := withCent
    clusters := clusters
    hub_nodes := findHubNodes withCent
    orphan_nodes := findOrphanNodes withCent
    broken_links := pr.2
    last_updated := some env.now }

/-! Named stages of `build_graph`, equal to the `let`-bound intermediates of
`buildGraph` (used to state phase lemmas). -/

def bNotes (env : BuildEnv) (fps : List String) : List (String × Note) :=
  buildNotesDict env.parse env.resolve fps []

def bNodes0 (env : BuildEnv) (fps : List String) : List (String × GraphNode) :=
  (bNotes env fps).map (fun q => (q.1, GraphNode.mk0 q.2))

def bLinks (env : BuildEnv) (fps : List String) : List Link :=
  allLinks env.parse env.resolve fps

def bProcessed (env : BuildEnv) (fps : List String) :
    List (String × GraphNode) × List Link :=
  processLinks (bNodes0 env fps) (bLinks env fps)

def bWithDeg (env : BuildEnv) (fps : List String) : List (String × GraphNode) :=
  setDegrees (bProcessed env fps).1

def bNodeIds (env : BuildEnv) (fps : List String) : List String :=
  (bWithDeg env fps).map (·.1)

def bEdges (env : BuildEnv) (fps : List String) : List (String × String) :=
  nxEdges (bWithDeg env fps) (bLinks env fps)

def bClusters (env : BuildEnv) (fps : List String) : List (List String) :=
  detectClusters (bNodeIds env fps) (bEdges env fps)

def bFinalNodes (env : BuildEnv) (fps : List String) : List (String × GraphNode) :=
  calculateCentrality env.pagerank (bNodeIds env fps) (bEdges env fps)
    (assignClusters (bWithDeg env fps) (bClusters env fps))

/-- The `new_nodes` dict of `update_graph` (builder.py lines 195–210):
`new_nodes[note.path] = GraphNode(note=note)` for every successfully parsed
changed file, links resolved in place. -/
def newNodesDict (parse : String → Option Note) (resolve : Link → Link)
    (changed : List String) : List (String × GraphNode) :=
  (buildNotesDict parse resolve changed []).map (fun p => (p.1, GraphNode.mk0 p.2))

/-- The per-link body of the incoming-link refresh loop of `update_graph`
(builder.py lines 221–230): drop the target's stale incoming links from this
source, then append the new link. -/
def uApplyLink (acc : List (String × GraphNode)) (link : Link) :
    List (String × GraphNode) :=
  match link.target_path with
  | some t =>
      if !link.is_broken && dictContains acc t then
        dictModify acc t (fun gn =>
          { gn with incoming_links :=
              (gn.incoming_links.filter (fun l => !(l.source_path == link.source_path)))
                ++ [link] })
      else acc
  | none => acc

/-- `GraphBuilder.update_graph` (builder.py lines 180–239).  The
`link_resolver.update_index` calls mutate resolver state that lives outside
the graph; `env.resolve` is the resolver as used during this update. -/
def updateGraph (env : BuildEnv) (graph : KnowledgeGraph)
    (changed removed : List String) : KnowledgeGraph :=
  let nodes1 := removed.foldl dictErase graph.nodes
  let new_nodes := newNodesDict env.parse env.resolve changed
  let new_links := allLinks env.parse env.resolve changed
  let nodes2 := dictUpdate nodes1 new_nodes
  let nodes3 := new_links.foldl uApplyLink nodes2
  { graph with
      nodes := setDegrees nodes3
      last_updated := some env.now }

/-- The node dict of the graph returned by `update_graph`. -/
def uFinalNodes (env : BuildEnv) (g : KnowledgeGraph)
    (changed removed : List String) : List (String × GraphNode) :=
  setDegrees ((allLinks env.parse env.resolve changed).foldl uApplyLink
    (dictUpdate (removed.foldl dictErase g.nodes)
      (newNodesDict env.parse env.resolve changed)))

/-- The test deciding whether `processLinks` appends `l` to node `p`'s
incoming links: resolvable and targeted at `p`. -/
def incomingFor (nodes : List (String × GraphNode)) (p : String) (l : Link) : Bool :=
  !(linkUnresolvedIn nodes l) && (l.target_path == some p)

/-- Append a batch of links to a node's incoming list. -/
def addIncomings (ls : List Link) (gn : GraphNode) : GraphNode :=
  { gn with incoming_links := gn.incoming_links ++ ls }

/-- The fields of a `GraphNode` untouched by cluster assignment and
centrality scoring. -/
def projDeg (gn : GraphNode) : Note × List Link × Nat × Nat :=
  (gn.note, gn.incoming_links, gn.in_degree, gn.out_degree)

/-- The fields of a `GraphNode` the incremental update claims to leave
alone. -/
def projCC (gn : GraphNode) : Option Nat × ℚ :=
  (gn.cluster_id, gn.centrality_score)

/-- Invariant of the component-merging algorithm: every member of a
component of size ≥ 2 is an endpoint of some edge. -/
def ccInv (S : List (String × String)) (comps : List (List String)) : Prop :=
  ∀ c ∈ comps, 2 ≤ c.length → ∀ v ∈ c, ∃ e ∈ S, e.1 = v ∨ e.2 = v

/-! ### Cache management (`cache/manager.py`) -/

/-- `CacheManager.CACHE_VERSION` -/
def CACHE_VERSION : String := "1.0"

/-- `_is_cache_valid` (manager.py lines 116–131): the stored fingerprint's
key set must equal the current key set exactly, and every stored timestamp
must equal the current one.  Timestamps (`st_mtime` floats compared only
for equality) are modelled as `Nat`. -/
def is_cache_valid (cached current : List (String × Nat)) : Bool :=
  ((cached.all (fun p => dictContains current p.1)) &&
      (current.all (fun p => dictContains cached p.1))) &&
    cached.all (fun p => dictLookup current p.1 == some p.2)

/-- The sidecar metadata record as `load_cache` consults it:
`metadata.get('version')` and `metadata.get('file_timestamps', {})`. -/
structure CacheMetadata where
  version : Option String
  file_timestamps : List (String × Nat)
deriving DecidableEq, Repr

/-- On-disk cache state as `load_cache` observes it: `none` = file missing;
`some none` = file present but deserialization fails (JSONDecodeError /
PickleError); `some (some x)` = file present with payload `x`. -/
structure CacheDisk where
  cache_file : Option (Option KnowledgeGraph)
  metadata_file : Option (Option CacheMetadata)

/-- `CacheManager.load_cache` (manager.py lines 28–54), with `current` the
fingerprint computed by `_get_file_timestamps` from the directory walk. -/
def load_cache (disk : CacheDisk) (current : List (String × Nat)) :
    Option KnowledgeGraph :=
  match disk.cache_file, disk.metadata_file with
  | some blob, some meta =>
    match meta with
    | none => none
    | some m =>
      if !(m.version == some CACHE_VERSION) then none
      else if !(is_cache_valid m.file_timestamps current) then none
      else
        match blob with
        | none => none
        | some g => some g
  | _, _ => none

/-- Python exceptions relevant to `save_cache`. -/
inductive PyExc
  | ioError
  | pickleError
  | attributeError
deriving DecidableEq, Repr

/-- Outcome of one `open(...)` + `dump(...)` write attempt: success with the
final content, or an exception that leaves whatever content the interrupted
write produced on disk (`none` = the file was never created). -/
inductive WriteOutcome
  | ok (content : String)
  | fails (exc : PyExc) (leftover : Option String)
deriving DecidableEq, Repr

/-- The two files `save_cache`/`clear_cache` manipulate. -/
structure CacheFiles where
  cache_file : Option String
  metadata_file : Option String
deriving DecidableEq, Repr

/-- `CacheManager.clear_cache` (manager.py lines 81–89): unlink both files. -/
def clear_cache (_st : CacheFiles) : CacheFiles :=
  { cache_file := none, metadata_file := none }

/-- `CacheManager.save_cache` (manager.py lines 56–79): write the pickle
blob (`w1`), then the metadata json (`w2`).  If either write raises, the
handler `except (IOError, pickle.PickleError, json.JSONEncodeError)` is
evaluated — but Python's `json` module has no attribute `JSONEncodeError`,
so evaluating the exception tuple itself raises `AttributeError`: the
`clear_cache()` rollback body is never entered, and `AttributeError` (not
the original exception) propagates, with the partially written file left on
disk. -/
def save_cache (st : CacheFiles) (w1 w2 : WriteOutcome) :
    CacheFiles × Option PyExc :=
  match w1 with
  | WriteOutcome.fails _ left =>
      ({ st with cache_file := left }, some PyExc.attributeError)
  | WriteOutcome.ok c1 =>
    match w2 with
    | WriteOutcome.fails _ left =>
        ({ cache_file := some c1, metadata_file := left }, some PyExc.attributeError)
    | WriteOutcome.ok c2 =>
        ({ cache_file := some c1, metadata_file := some c2 }, none)

/-- What manager.py lines 76–79 are documented (and specified) to do on a
failing write: run `clear_cache()` and re-raise the original exception. -/
def save_cache_speced (st : CacheFiles) (w1 w2 : WriteOutcome) :
    CacheFiles × Option PyExc :=
  match w1 with
  | WriteOutcome.fails e left =>
      (clear_cache { st with cache_file := left }, some e)
  | WriteOutcome.ok c1 =>
    match w2 with
    | WriteOutcome.fails e left =>
        (clear_cache { cache_file := some c1, metadata_file := left }, some e)
    | WriteOutcome.ok c2 =>
        ({ cache_file := some c1, metadata_file := some c2 }, none)

/-! ### Search engine (`search/engine.py`) -/

/-- First-occurrence order of distinct elements, as produced by building a
Python dict / set by repeated insertion. -/
def dedupFirst [DecidableEq α] : List α → List α → List α
  | _, [] => []
  | seen, x :: xs =>
    if x ∈ seen then dedupFirst seen xs else x :: dedupFirst (x :: seen) xs

/-- The contexts kept by the merge (engine.py line 260): Python keeps
`r.context` when it is truthy, i.e. neither `None` nor `""`. -/
def truthyContexts (group : List SearchResult) : List String :=
  group.filterMap (fun r =>
    match r.context with
    | some c => if c = "" then none else some c
    | none => none)

/-- String order used by Python's `sorted` on match-type labels. -/
def strLeRel (a b : String) : Prop := a ≤ b

instance : DecidableRel strLeRel := fun a b => by unfold strLeRel; infer_instance

/-- The combination branch of `_merge_results` for a note hit more than once
(engine.py lines 257–273): scores summed, boosted ×1.5 when more than one
distinct match type contributed, labels sorted/deduplicated/joined with `+`,
at most 3 truthy contexts joined. -/
def mergeGroup (path : String) (group : List SearchResult) : SearchResult :=
  let total_score : ℚ := (group.map (·.score)).sum
  let match_types := group.map (·.match_type)
  let contexts := truthyContexts group
  let distinct := dedupFirst [] match_types
  { note_path := path
    score := if 1 < distinct.length then total_score * (3 / 2) else total_score
    match_type := String.intercalate "+" (List.insertionSort strLeRel distinct)
    context := some (String.intercalate " | " (contexts.take 3))
    line_number := none
    graph_node := (group.head?.map (·.graph_node)).getD none }

/-- `SearchEngine._merge_results` (engine.py lines 241–275): group results
by `note_path` (dict insertion order = first occurrence), pass singleton
groups through unchanged, combine larger groups. -/
def merge_results (results : List SearchResult) : List SearchResult :=
  (dedupFirst [] (results.map (·.note_path))).map (fun path =>
    match results.filter (fun r => r.note_path == path) with
    | [r] => r
    | group => mergeGroup path group)

/-! ### Graph analysis (`graph/algorithms.py`) -/

/-- One related-note signal record (the `{'path', 'type', 'reason', 'score'}`
dicts built by the four `_find_*` helpers). -/
structure RelItem where
  path : String
  rtype : String
  reason : String
  score : ℚ
deriving DecidableEq, Repr

/-- `pathlib.Path(p).parent` for the slash-separated path strings of the
model. -/
def parentDir (p : String) : String :=
  let parts := p.splitOn "/"
  if parts.length ≤ 1 then "." else String.intercalate "/" parts.dropLast

/-- `_find_direct_connections` (algorithms.py lines 82–105): resolved
outgoing links, then all incoming links, each at score 5.0. -/
def findDirectConnections (graph : KnowledgeGraph) (node : GraphNode) : List RelItem :=
  (node.note.outgoing_links.filterMap (fun link =>
    match link.target_path with
    | some t =>
        if !link.is_broken && dictContains graph.nodes t then
          some { path := t, rtype := "direct", reason := "this links to", score := 5 }
        else none
    | none => none)) ++
  node.incoming_links.map (fun link =>
    { path := link.source_path, rtype := "direct", reason := "links to this", score := 5 })

/-- `_find_cluster_members` (lines 107–124).  A `cluster_id` outside the
range of `clusters` raises `IndexError` in the source; the builder never
produces such a graph, and the embedding reads an empty cluster there. -/
def findClusterMembers (graph : KnowledgeGraph) (node : GraphNode) : List RelItem :=
  match node.cluster_id with
  | none => []
  | some cid =>
    ((graph.clusters.get? cid).getD []).filterMap (fun member =>
      if member = node.note.path then none
      else some { path := member, rtype := "cluster",
                  reason := "same cluster #" ++ toString cid, score := 3 })

/-- The set `{link.target_path for link in outgoing_links if not broken}`
(which may contain `None` in Python). -/
def linkTargets (n : Note) : List (Option String) :=
  dedupFirst [] ((n.outgoing_links.filter (fun l => !l.is_broken)).map (·.target_path))

/-- `_find_structurally_similar` (lines 126–161): Jaccard similarity of
non-broken outgoing-target sets, kept when ≥ 0.2 (the model uses the exact
rational 1/5; no verified property depends on the threshold), scored
`similarity × 2`. -/
def findStructurallySimilar (graph : KnowledgeGraph) (node : GraphNode) : List RelItem :=
  let node_targets := linkTargets node.note
  if node_targets.isEmpty then []
  else
    graph.nodes.filterMap (fun p =>
      if p.1 = node.note.path then none
      else
        let other_targets := linkTargets p.2.note
        if other_targets.isEmpty then none
        else
          let inter := (node_targets.filter (fun t => t ∈ other_targets)).length
          let uni := (dedupFirst [] (node_targets ++ other_targets)).length
          if 0 < inter then
            if 0 < uni then
              let similarity : ℚ := (inter : ℚ) / (uni : ℚ)
              if 1 / 5 ≤ similarity then
                some { path := p.1, rtype := "similar",
                       reason := toString inter ++ " shared links",
                       score := similarity * 2 }
              else none
            else none
          else none)

/-- Python set intersection on duplicate-free tag lists. -/
def tagInter (a b : List String) : List String := a.filter (fun t => t ∈ b)

/-- `_find_tag_similar` (lines 163–186): notes sharing at least one tag,
scored `1.5 × |shared tags|`.  (The `overlap_ratio` local of the source is
computed and never used.) -/
def findTagSimilar (graph : KnowledgeGraph) (node : GraphNode) : List RelItem :=
  if node.note.tags.isEmpty then []
  else
    graph.nodes.filterMap (fun p =>
      if p.1 = node.note.path then none
      else if p.2.note.tags.isEmpty then none
      else
        let shared := tagInter node.note.tags p.2.note.tags
        if shared.isEmpty then none
        else
          some { path := p.1, rtype := "tags",
                 reason := "shared tags: " ++ String.intercalate ", " shared,
                 score := (shared.length : ℚ) * (3 / 2) })

/-- The dedup loop of `find_related_notes` (lines 70–77): `seen` starts as
`{note_path}`, and only the first occurrence of each path is kept. -/
def dedupRelated : List RelItem → List String → List RelItem
  | [], _ => []
  | item :: rest, seen =>
    if item.path ∈ seen then dedupRelated rest seen
    else item :: dedupRelated rest (item.path :: seen)

/-- `_score_related_notes` (lines 188–210): ×1.3 for hubs, ×1.2 for total
degree > 5, ×1.1 for a shared parent directory (exact rationals stand in
for the float literals; no verified property depends on their values). -/
def scoreRelatedNotes (graph : KnowledgeGraph) (node : GraphNode)
    (related : List RelItem) : List RelItem :=
  related.map (fun item =>
    match dictLookup graph.nodes item.path with
    | none => item
    | some related_node =>
      let s := item.score
      let s := if item.path ∈ graph.hub_nodes then s * (13 / 10) else s
      let s := if 5 < related_node.in_degree + related_node.out_degree then s * (6 / 5) else s
      let s := if parentDir node.note.path = parentDir related_node.note.path
               then s * (11 / 10) else s
      { item with score := s })

/-- Descending-score order used by `find_related_notes`'s final sort. -/
def relScoreRel (a b : RelItem) : Prop := b.score ≤ a.score

instance : DecidableRel relScoreRel := fun a b => by unfold relScoreRel; infer_instance

instance : IsTotal RelItem relScoreRel :=
  ⟨fun a b => (le_total b.score a.score).elim Or.inl Or.inr⟩

instance : IsTrans RelItem relScoreRel :=
  ⟨fun _ _ _ hab hbc => le_trans hbc hab⟩

/-- `GraphAnalyzer.find_related_notes` (algorithms.py lines 46–80). -/
def find_related_notes (graph : KnowledgeGraph) (note_path : String)
    (max_results : Nat := 20) : List RelItem :=
  match dictLookup graph.nodes note_path with
  | none => []
  | some node =>
    let related :=
      findDirectConnections graph node ++ findClusterMembers graph node ++
        findStructurallySimilar graph node ++ findTagSimilar graph node
    let unique_related := dedupRelated related [note_path]
    let scored := scoreRelatedNotes graph node unique_related
    (List.insertionSort relScoreRel scored).take max_results

/-! ### Markdown link extraction (`parser/markdown.py`)

`_extract_links` runs `WIKI_LINK_PATTERN.finditer(line)` and
`MD_LINK_PATTERN.finditer(line)` per line.  The two patterns
(`\[\[([^\]]+)\]\]` and `\[([^\]]+)\]\(([^)]+)\)`) are deterministic: the
greedy character-class runs can never backtrack (a shorter run would have to
be followed by a character the class excludes), so leftmost non-overlapping
matching is an explicit scan. -/

/-- Match of `\[\[([^\]]+)\]\]` at the head of the input: the captured group
and the remaining characters. -/
def headWiki : List Char → Option (List Char × List Char)
  | '[' :: '[' :: rest =>
    let run := rest.takeWhile (fun c => c != ']')
    match rest.drop run.length with
    | ']' :: ']' :: rest2 => if run.isEmpty then none else some (run, rest2)
    | _ => none
  | _ => none

/-- Match of `\[([^\]]+)\]\(([^)]+)\)` at the head of the input: captured
display text, captured target, remaining characters. -/
def headMd : List Char → Option (List Char × List Char × List Char)
  | '[' :: rest =>
    let disp := rest.takeWhile (fun c => c != ']')
    match rest.drop disp.length with
    | ']' :: '(' :: rest2 =>
      if disp.isEmpty then none
      else
        let tgt := rest2.takeWhile (fun c => c != ')')
        match rest2.drop tgt.length with
        | ')' :: rest3 => if tgt.isEmpty then none else some (disp, tgt, rest3)
        | _ => none
    | _ => none
  | _ => none

/-- `re.finditer` for the wiki pattern: (start, end, group 1) for each
leftmost non-overlapping match.  Every step consumes at least one character,
so fuel `cs.length` is always enough. -/
def wikiMatchesAux : Nat → List Char → Nat → List (Nat × Nat × String)
  | 0, _, _ => []
  | fuel + 1, cs, i =>
    match headWiki cs with
    | some (run, rest2) =>
        (i, i + run.length + 4, String.mk run) ::
          wikiMatchesAux fuel rest2 (i + run.length + 4)
    | none =>
      match cs with
      | [] => []
      | _ :: rest => wikiMatchesAux fuel rest (i + 1)

def wikiMatches (cs : List Char) : List (Nat × Nat × String) :=
  wikiMatchesAux cs.length cs 0

/-- `re.finditer` for the markdown pattern: (start, end, group 1, group 2). -/
def mdMatchesAux : Nat → List Char → Nat → List (Nat × Nat × String × String)
  | 0, _, _ => []
  | fuel + 1, cs, i =>
    match headMd cs with
    | some (disp, tgt, rest3) =>
        (i, i + disp.length + tgt.length + 4, String.mk disp, String.mk tgt) ::
          mdMatchesAux fuel rest3 (i + disp.length + tgt.length + 4)
    | none =>
      match cs with
      | [] => []
      | _ :: rest => mdMatchesAux fuel rest (i + 1)

def mdMatches (cs : List Char) : List (Nat × Nat × String × String) :=
  mdMatchesAux cs.length cs 0

/-- `MarkdownParser._extract_context` (markdown.py lines 158–177): slice
`content[max(0, start-100) : min(len, end+100)]`, normalize whitespace,
ellipsis on each truncated side. -/
def extract_context (content : String) (match_start match_end : Nat)
    (context_chars : Nat := 100) : String :=
  let cs := content.toList
  let start := match_start - context_chars
  let stop := min cs.length (match_end + context_chars)
  let ctx := (cs.drop start).take (stop - start)
  let ctx := String.intercalate " "
    (((String.mk ctx).split Char.isWhitespace).filter (fun w => !(w == "")))
  let ctx := if 0 < start then "..." ++ ctx else ctx
  if stop < cs.length then ctx ++ "..." else ctx

/-- One wiki link as built by `_extract_links` (markdown.py lines 109–127):
alias split on `|`, `context` computed by passing the match's offsets
*within its own line* to `_extract_context(content, ...)` over the whole
body. -/
def wikiLinkOf (content source_path : String) (line_num : Nat)
    (m : Nat × Nat × String) : Link :=
  let link_text := m.2.2
  let target :=
    if link_text.contains '|' then (link_text.splitOn "|").headD link_text
    else link_text
  { source_path := source_path
    target_path := none
    link_type := LinkType.wiki
    link_text := target.trim
    context := extract_context content m.1 m.2.1
    line_number := line_num
    is_broken := false }

def externalSchemes : List String := ["http://", "https://", "ftp://", "mailto:"]

/-- One markdown link as built by `_extract_links` (lines 130–147), same
line-offset `context`. -/
def mdLinkOf (content source_path : String) (line_num : Nat)
    (m : Nat × Nat × String × String) : Link :=
  { source_path := source_path
    target_path := none
    link_type := LinkType.markdown
    link_text := m.2.2.2
    context := extract_context content m.1 m.2.1
    line_number := line_num
    is_broken := false }

/-- `MarkdownParser._extract_links` (markdown.py lines 103–149): per line
(1-based), wiki matches then markdown matches, external URL schemes
skipped. -/
def extract_links (content source_path : String) : List Link :=
  ((content.splitOn "\n").enum).flatMap (fun p =>
    (wikiMatches p.2.toList).map (wikiLinkOf content source_path (p.1 + 1)) ++
      (mdMatches p.2.toList).filterMap (fun m =>
        if externalSchemes.any (fun s => m.2.2.2.startsWith s) then none
        else some (mdLinkOf content source_path (p.1 + 1) m)))

/-! ### Concrete instances

A small concrete universe used to instantiate hypotheses and exhibit
counterexamples: two files, `R.md` linking to `B.md` by a wiki link. -/

def fsAB : String → Bool := fun s => s == "R.md" || s == "B.md"

def linkRB : Link :=
  { source_path := "R.md", target_path := none, link_type := LinkType.wiki,
    link_text := "B", context := "", line_number := 3, is_broken := false }

def noteR : Note :=
  { path := "R.md", relative_path := "R.md", title := "R", headings := [],
    outgoing_links := [linkRB], tags := [], last_modified := some 0, word_count := 2 }

def noteB : Note :=
  { path := "B.md", relative_path := "B.md", title := "B", headings := [],
    outgoing_links := [], tags := [], last_modified := some 0, word_count := 1 }

/-- Wiki-strategy result on this universe: the stem `B` resolves (by the
exact-stem index lookup, strategy 2 of `_resolve_wiki_link`) to `B.md`. -/
def wikiAB : String → String → Option String := fun text _ =>
  if text == "B" then some "B.md" else none

def resolveAB : Link → Link := resolve_link fsAB wikiAB (fun _ _ => none)

def parseAB : String → Option Note := fun s =>
  if s == "R.md" then some noteR else if s == "B.md" then some noteB else none

def envAB : BuildEnv :=
  { parse := parseAB, resolve := resolveAB, pagerank := fun _ _ => none, now := 7 }

def graphAB : KnowledgeGraph := buildGraph envAB ["R.md", "B.md"]

/-- `linkRB` after resolution. -/
def linkRBres : Link := resolveAB linkRB

def noteRres : Note := { noteR with outgoing_links := [linkRBres] }

/-- The node stored for `B.md` in `graphAB`. -/
def gnBval : GraphNode :=
  { note := noteB, incoming_links := [linkRBres], in_degree := 1,
    out_degree := 0, cluster_id := some 0, centrality_score := 1 }

/-- The node stored for `R.md` in `graphAB`. -/
def gnRval : GraphNode :=
  { note := noteRres, incoming_links := [], in_degree := 0,
    out_degree := 1, cluster_id := some 0, centrality_score := 1 }

/-- The two-file universe extended with an isolated third note `C.md`. -/
def fsABC : String → Bool := fun s => s == "R.md" || s == "B.md" || s == "C.md"

def noteC : Note :=
  { path := "C.md", relative_path := "C.md", title := "C", headings := [],
    outgoing_links := [], tags := [], last_modified := some 0, word_count := 1 }

def parseABC : String → Option Note := fun s =>
  if s == "R.md" then some noteR
  else if s == "B.md" then some noteB
  else if s == "C.md" then some noteC
  else none

def resolveABC : Link → Link := resolve_link fsABC wikiAB (fun _ _ => none)

def envABC : BuildEnv :=
  { parse := parseABC, resolve := resolveABC, pagerank := fun _ _ => none, now := 9 }

def graphABC : KnowledgeGraph := buildGraph envABC ["R.md", "B.md", "C.md"]

/-- The one related-note signal produced for `R.md` in `graphAB`. -/
def relBval : RelItem :=
  { path := "B.md", rtype := "direct", reason := "this links to", score := 11 / 2 }

/-- An empty graph payload for the cache instances. -/
def emptyKG : KnowledgeGraph :=
  { nodes := [], clusters := [], hub_nodes := [], orphan_nodes := [],
    broken_links := [], last_updated := none }

def fpStored : List (String × Nat) := [("a.md", 100), ("b.md", 200)]

def metaStored : CacheMetadata :=
  { version := some "1.0", file_timestamps := fpStored }

def diskStored : CacheDisk :=
  { cache_file := some (some emptyKG), metadata_file := some (some metaStored) }

/-- Two concrete search hits on the same note from different strategies. -/
def srText : SearchResult :=
  { note_path := "X.md", score := 2, match_type := "text",
    context := some "ctx one", line_number := some 4, graph_node := none }

def srPath : SearchResult :=
  { note_path := "X.md", score := 5, match_type := "path",
    context := some "Path: X.md", line_number := none, graph_node := none }

/-- A document whose second line holds a wiki link after a 110-character
first line: the line-local match offset 0 differs from the body offset
111 of the link's occurrence. -/
def contentC : String := String.mk (List.replicate 110 'x') ++ "\n[[b]] end"

/-! ### Dictionary lemmas -/

theorem dictLookup_nil (k : String) : dictLookup ([] : List (String × α)) k = none := rfl

theorem dictLookup_cons (p : String × α) (d : List (String × α)) (k : String) :
    dictLookup (p :: d) k = if p.1 = k then some p.2 else dictLookup d k := by
  by_cases h : p.1 = k <;> simp [dictLookup, List.find?_cons, h]

theorem dictContains_nil (k : String) : dictContains ([] : List (String × α)) k = false := rfl

theorem dictContains_cons (p : String × α) (d : List (String × α)) (k : String) :
    dictContains (p :: d) k = ((p.1 == k) || dictContains d k) := by
  simp [dictContains]

theorem dictModify_nil (k : String) (f : α → α) : dictModify ([] : List (String × α)) k f = [] := rfl

theorem dictModify_cons (p : String × α) (d : List (String × α)) (k : String) (f : α → α) :
    dictModify (p :: d) k f =
      (if p.1 = k then (p.1, f p.2) else p) :: dictModify d k f := by
  by_cases h : p.1 = k <;> simp [dictModify, h]

theorem dictModify_keys (d : List (String × α)) (k : String) (f : α → α) :
    (dictModify d k f).map (·.1) = d.map (·.1) := by
  induction d with
  | nil => rfl
  | cons p rest ih =>
    rw [dictModify_cons]
    by_cases h : p.1 = k <;> simp [h, ih]

theorem dictContains_eq_keys (d : List (String × α)) (k : String) :
    dictContains d k = (d.map (·.1)).any (· == k) := by
  induction d with
  | nil => rfl
  | cons p rest ih => simp [dictContains, List.any_cons] at ih ⊢; rw [ih]

theorem dictContains_modify (d : List (String × α)) (k k2 : String) (f : α → α) :
    dictContains (dictModify d k f) k2 = dictContains d k2 := by
  rw [dictContains_eq_keys, dictContains_eq_keys, dictModify_keys]

theorem dictLookup_modify (d : List (String × α)) (k k2 : String) (f : α → α) :
    dictLookup (dictModify d k f) k2 =
      if k2 = k then (dictLookup d k2).map f else dictLookup d k2 := by
  induction d with
  | nil => by_cases h : k2 = k <;> simp [dictModify_nil, dictLookup_nil, h]
  | cons p rest ih =>
    rw [dictModify_cons]
    by_cases hpk : p.1 = k
    · by_cases hk2 : k2 = k
      · subst hk2
        simp [dictLookup_cons, hpk, ih]
      · have hne : ¬ p.1 = k2 := by rw [hpk]; exact fun h => hk2 h.symm
        have hk2s : ¬ k = k2 := fun h => hk2 h.symm
        simp [dictLookup_cons, hpk, hne, ih, hk2, hk2s]
    · by_cases hk2 : k2 = k
      · subst hk2
        have hne : ¬ p.1 = k2 := hpk
        simp [dictLookup_cons, hpk, hne, ih]
      · by_cases hp2 : p.1 = k2 <;> simp [dictLookup_cons, hpk, hp2, ih, hk2]


theorem resolve_link_source (fsExists : String → Bool)
    (w m : String → String → Option String) (link : Link) :
    (resolve_link fsExists w m link).source_path = link.source_path := rfl

/-- Line 57 of `links.py`: a resolved link is non-broken exactly when a
target was found and it exists on disk. -/
theorem resolve_link_broken_iff (fsExists : String → Bool)
    (w m : String → String → Option String) (link : Link) :
    (resolve_link fsExists w m link).is_broken = false ↔
      ∃ t, (resolve_link fsExists w m link).target_path = some t ∧ fsExists t = true := by
  unfold resolve_link
  cases h : (match link.link_type with
    | LinkType.wiki => w link.link_text link.source_path
    | LinkType.markdown => m link.link_text link.source_path
    | LinkType.tag => none) with
  | none => simp [h]
  | some t => simp [h]


theorem dictContains_append (d e : List (String × α)) (k : String) :
    dictContains (d ++ e) k = (dictContains d k || dictContains e k) := by
  simp [dictContains]

theorem replace_keys (d : List (String × α)) (k : String) (v : α) :
    (d.map (fun p => if p.1 == k then (k, v) else p)).map (·.1) = d.map (·.1) := by
  rw [List.map_map]
  apply List.map_congr_left
  intro p _
  by_cases h : p.1 = k <;> simp [h]

theorem dictInsert_keys (d : List (String × α)) (k : String) (v : α) :
    (dictInsert d k v).map (·.1) =
      if dictContains d k then d.map (·.1) else d.map (·.1) ++ [k] := by
  unfold dictInsert
  by_cases h : dictContains d k = true
  · simp only [h, if_true]
    rw [replace_keys]
  · simp [h]

theorem dictContains_iff_lookup (d : List (String × α)) (k : String) :
    dictContains d k = true ↔ ∃ v, dictLookup d k = some v := by
  induction d with
  | nil => simp [dictContains_nil, dictLookup_nil]
  | cons p rest ih =>
    by_cases h : p.1 = k <;> simp [dictContains_cons, dictLookup_cons, h, ih]

theorem lookup_replace (d : List (String × α)) (k : String) (v : α) (t : String) :
    dictLookup (d.map (fun p => if p.1 == k then (k, v) else p)) t =
      if t = k then (dictLookup d k).map (fun _ => v) else dictLookup d t := by
  induction d with
  | nil => by_cases h : t = k <;> simp [dictLookup_nil, h]
  | cons p rest ih =>
    simp only [List.map_cons]
    by_cases htk : t = k
    · by_cases hpk : p.1 = k <;> simp [dictLookup_cons, hpk, htk] at ih ⊢ <;>
        simp [ih, hpk, htk]
    · have hkt : ¬ k = t := fun e => htk (Eq.symm e)
      by_cases hpk : p.1 = k <;> simp [dictLookup_cons, hpk, htk, hkt] at ih ⊢ <;>
        simp [ih, hpk, htk, hkt]

theorem dictLookup_append (d e : List (String × α)) (t : String) :
    dictLookup (d ++ e) t =
      match dictLookup d t with
      | some v => some v
      | none => dictLookup e t := by
  induction d with
  | nil => simp [dictLookup_nil]
  | cons p rest ih =>
    by_cases hpt : p.1 = t <;> simp [dictLookup_cons, hpt, ih]

theorem dictLookup_insert (d : List (String × α)) (k : String) (v : α) (t : String) :
    dictLookup (dictInsert d k v) t = if k = t then some v else dictLookup d t := by
  unfold dictInsert
  by_cases h : dictContains d k = true
  · simp only [h, if_true]
    rw [lookup_replace]
    by_cases hkt : k = t
    · subst hkt
      rcases (dictContains_iff_lookup d k).1 h with ⟨w, hw⟩
      simp [hw]
    · have htk : ¬ t = k := fun e => hkt (Eq.symm e)
      simp [htk, hkt]
  · simp only [h]
    simp only [Bool.false_eq_true, if_false]
    rw [dictLookup_append]
    by_cases hkt : k = t
    · subst hkt
      have hnone : dictLookup d k = none := by
        cases hl : dictLookup d k with
        | none => rfl
        | some w => exact absurd ((dictContains_iff_lookup d k).2 ⟨w, hl⟩) h
      simp [hnone, dictLookup_cons]
    · cases hl : dictLookup d t with
      | none => simp [hl, dictLookup_cons, dictLookup_nil, hkt]
      | some w => simp [hl, hkt]

theorem dictContains_insert (d : List (String × α)) (k : String) (v : α) (t : String) :
    dictContains (dictInsert d k v) t = (dictContains d t || (k == t)) := by
  by_cases hkt : k = t
  · subst hkt
    have h1 : dictContains (dictInsert d k v) k = true :=
      (dictContains_iff_lookup _ k).2 ⟨v, by rw [dictLookup_insert]; simp⟩
    rw [h1]
    simp
  · have h1 : dictLookup (dictInsert d k v) t = dictLookup d t := by
      rw [dictLookup_insert]
      simp [hkt]
    have hbeq : (k == t) = false := by simp [hkt]
    rw [hbeq, Bool.or_false]
    cases hc : dictContains d t with
    | true =>
      rcases (dictContains_iff_lookup d t).1 hc with ⟨w, hw⟩
      exact (dictContains_iff_lookup _ t).2 ⟨w, by rw [h1]; exact hw⟩
    | false =>
      cases hc2 : dictContains (dictInsert d k v) t with
      | false => rfl
      | true =>
        exfalso
        rcases (dictContains_iff_lookup _ t).1 hc2 with ⟨w, hw⟩
        rw [h1] at hw
        have h3 := (dictContains_iff_lookup d t).2 ⟨w, hw⟩
        rw [hc] at h3
        cases h3

theorem dictLookup_erase (d : List (String × α)) (k t : String) :
    dictLookup (dictErase d k) t = if t = k then none else dictLookup d t := by
  induction d with
  | nil => by_cases h : t = k <;> simp [dictErase, dictLookup_nil, h]
  | cons p rest ih =>
    by_cases hpk : p.1 = k
    · have hstep : dictErase (p :: rest) k = dictErase rest k := by simp [dictErase, hpk]
      rw [hstep, ih]
      by_cases htk : t = k
      · simp [htk]
      · have hpt : ¬ p.1 = t := by rw [hpk]; exact fun e => htk (Eq.symm e)
        simp [htk, dictLookup_cons, hpt]
    · have hstep : dictErase (p :: rest) k = p :: dictErase rest k := by
        simp [dictErase, hpk]
      rw [hstep, dictLookup_cons, ih, dictLookup_cons]
      by_cases hpt : p.1 = t
      · have htk : ¬ t = k := by rw [← hpt]; exact hpk
        simp [hpt, htk]
      · simp [hpt]

theorem dictLookup_foldl_erase (l : List String) (d : List (String × α)) (t : String)
    (h : ¬ t ∈ l) : dictLookup (l.foldl dictErase d) t = dictLookup d t := by
  induction l generalizing d with
  | nil => rfl
  | cons k rest ih =>
    have h1 : ¬ t = k := fun e => h (by simp [e])
    have h2 : ¬ t ∈ rest := fun e => h (by simp [e])
    rw [List.foldl_cons, ih _ h2, dictLookup_erase]
    simp [h1]

theorem dictLookup_update_untouched (d new : List (String × α)) (t : String)
    (h : ∀ q ∈ new, ¬ q.1 = t) : dictLookup (dictUpdate d new) t = dictLookup d t := by
  induction new generalizing d with
  | nil => rfl
  | cons q rest ih =>
    rw [dictUpdate, List.foldl_cons]
    have h1 : ∀ r ∈ rest, ¬ r.1 = t := fun r hr => h r (by simp [hr])
    have := ih (dictInsert d q.1 q.2) h1
    rw [dictUpdate] at this
    rw [this, dictLookup_insert]
    simp [h q (by simp)]

theorem lookup_mapValues (f : α → β) (d : List (String × α)) (k : String) :
    dictLookup (d.map (fun p => (p.1, f p.2))) k = (dictLookup d k).map f := by
  induction d with
  | nil => rfl
  | cons p rest ih =>
    by_cases h : p.1 = k <;> simp [dictLookup_cons, h, ih]

theorem mapValues_keys (f : α → β) (d : List (String × α)) :
    (d.map (fun p => (p.1, f p.2))).map (·.1) = d.map (·.1) := by
  rw [List.map_map]
  apply List.map_congr_left
  intro p _
  rfl

/-! ### Builder phase lemmas -/

theorem linkUnresolvedIn_congr (nodes nodes2 : List (String × GraphNode)) (l : Link)
    (h : nodes.map (·.1) = nodes2.map (·.1)) :
    linkUnresolvedIn nodes l = linkUnresolvedIn nodes2 l := by
  cases ht : l.target_path with
  | none => simp [linkUnresolvedIn, ht]
  | some t => simp [linkUnresolvedIn, ht, dictContains_eq_keys, h]

theorem incomingFor_congr (nodes nodes2 : List (String × GraphNode)) (p : String) (l : Link)
    (h : nodes.map (·.1) = nodes2.map (·.1)) :
    incomingFor nodes p l = incomingFor nodes2 p l := by
  unfold incomingFor
  rw [linkUnresolvedIn_congr nodes nodes2 l h]

theorem linkUnresolvedIn_eq_false (nodes : List (String × GraphNode)) (l : Link) :
    linkUnresolvedIn nodes l = false ↔
      l.is_broken = false ∧ ∃ t, l.target_path = some t ∧ dictContains nodes t = true := by
  cases ht : l.target_path with
  | none => simp [linkUnresolvedIn, ht]
  | some t => simp [linkUnresolvedIn, ht]

theorem linkUnresolvedIn_eq_true (nodes : List (String × GraphNode)) (l : Link) :
    linkUnresolvedIn nodes l = true ↔
      l.is_broken = true ∨ l.target_path = none ∨
        ∃ t, l.target_path = some t ∧ dictContains nodes t = false := by
  cases ht : l.target_path with
  | none => simp [linkUnresolvedIn, ht]
  | some t => simp [linkUnresolvedIn, ht]

theorem processLinks_nil (nodes : List (String × GraphNode)) :
    processLinks nodes [] = (nodes, []) := rfl

theorem processLinks_cons (nodes : List (String × GraphNode)) (link : Link) (rest : List Link) :
    processLinks nodes (link :: rest) =
      if linkUnresolvedIn nodes link then
        ((processLinks nodes rest).1, link :: (processLinks nodes rest).2)
      else
        processLinks (dictModify nodes (link.target_path.getD "") (appendIncoming link)) rest := by
  rfl

theorem processLinks_keys (nodes : List (String × GraphNode)) (ls : List Link) :
    (processLinks nodes ls).1.map (·.1) = nodes.map (·.1) := by
  induction ls generalizing nodes with
  | nil => rfl
  | cons link rest ih =>
    rw [processLinks_cons]
    by_cases h : linkUnresolvedIn nodes link = true
    · simp only [h, if_true]
      exact ih nodes
    · simp only [h]
      simp only [Bool.false_eq_true, if_false]
      rw [ih, dictModify_keys]

theorem processLinks_broken (nodes : List (String × GraphNode)) (ls : List Link) :
    (processLinks nodes ls).2 = ls.filter (linkUnresolvedIn nodes) := by
  induction ls generalizing nodes with
  | nil => rfl
  | cons link rest ih =>
    rw [processLinks_cons]
    by_cases h : linkUnresolvedIn nodes link = true
    · simp only [h, if_true, List.filter_cons, ih]
    · simp only [h]
      simp only [Bool.false_eq_true, if_false, List.filter_cons, h]
      rw [ih]
      apply List.filter_congr
      intro l _
      exact linkUnresolvedIn_congr _ nodes l (dictModify_keys nodes _ _)

theorem processLinks_lookup (nodes : List (String × GraphNode)) (ls : List Link) (p : String) :
    dictLookup (processLinks nodes ls).1 p =
      (dictLookup nodes p).map (addIncomings (ls.filter (incomingFor nodes p))) := by
  induction ls generalizing nodes with
  | nil =>
    rw [processLinks_nil]
    cases h : dictLookup nodes p <;> simp [addIncomings, h]
  | cons link rest ih =>
    rw [processLinks_cons]
    by_cases h : linkUnresolvedIn nodes link = true
    · have hf : incomingFor nodes p link = false := by
        simp [incomingFor, h]
      simp only [h, if_true, List.filter_cons, hf]
      simp only [Bool.false_eq_true, if_false]
      exact ih nodes
    · rcases (linkUnresolvedIn_eq_false nodes link).1 (by simpa using h) with ⟨hb, t, ht, hc⟩
      simp only [h]
      simp only [Bool.false_eq_true, if_false]
      rw [ih, dictLookup_modify]
      have hkeys := dictModify_keys nodes (link.target_path.getD "") (appendIncoming link)
      have hfc : rest.filter (incomingFor (dictModify nodes (link.target_path.getD "")
          (appendIncoming link)) p) = rest.filter (incomingFor nodes p) := by
        apply List.filter_congr
        intro l _
        exact incomingFor_congr _ nodes p l hkeys
      rw [hfc, ht]
      by_cases hpt : p = t
      · subst hpt
        have hhead : incomingFor nodes p link = true := by
          simp [incomingFor, h, ht]
        simp only [List.filter_cons, hhead, if_true]
        simp only [Option.getD, eq_self_iff_true, if_true]
        cases hl : dictLookup nodes p <;>
          simp [addIncomings, appendIncoming, hl, List.append_assoc]
      · have hhead : incomingFor nodes p link = false := by
          simp [incomingFor, ht]
          intro
          exact fun e => hpt (Eq.symm e)
        simp only [List.filter_cons, hhead]
        simp only [Bool.false_eq_true, if_false, Option.getD]
        rw [if_neg hpt]

theorem setDegrees_lookup (nodes : List (String × GraphNode)) (p : String) :
    dictLookup (setDegrees nodes) p =
      (dictLookup nodes p).map (fun gn =>
        { gn with
            in_degree := gn.incoming_links.length
            out_degree := gn.note.outgoing_links.length }) := by
  unfold setDegrees
  exact lookup_mapValues
    (fun gn => { gn with
        in_degree := gn.incoming_links.length
        out_degree := gn.note.outgoing_links.length }) nodes p

theorem setDegrees_keys (nodes : List (String × GraphNode)) :
    (setDegrees nodes).map (·.1) = nodes.map (·.1) := by
  unfold setDegrees
  exact mapValues_keys
    (fun gn => { gn with
        in_degree := gn.incoming_links.length
        out_degree := gn.note.outgoing_links.length }) nodes

theorem modify_lookup_proj {γ : Type} (proj : GraphNode → γ) (f : GraphNode → GraphNode)
    (hf : ∀ gn, proj (f gn) = proj gn) (d : List (String × GraphNode)) (k p : String) :
    (dictLookup (dictModify d k f) p).map proj = (dictLookup d p).map proj := by
  rw [dictLookup_modify]
  by_cases h : p = k
  · simp only [h, if_true]
    cases hl : dictLookup d k <;> simp [hf]
  · simp [h]

theorem foldl_lookup_proj {β : Type} {γ : Type} (proj : GraphNode → γ)
    (step : List (String × GraphNode) → β → List (String × GraphNode))
    (hs : ∀ acc b p, (dictLookup (step acc b) p).map proj = (dictLookup acc p).map proj)
    (l : List β) (init : List (String × GraphNode)) (p : String) :
    (dictLookup (l.foldl step init) p).map proj = (dictLookup init p).map proj := by
  induction l generalizing init with
  | nil => rfl
  | cons b rest ih => rw [List.foldl_cons, ih (step init b), hs]

theorem foldl_keys {β : Type}
    (step : List (String × GraphNode) → β → List (String × GraphNode))
    (hs : ∀ acc b, (step acc b).map (·.1) = acc.map (·.1))
    (l : List β) (init : List (String × GraphNode)) :
    (l.foldl step init).map (·.1) = init.map (·.1) := by
  induction l generalizing init with
  | nil => rfl
  | cons b rest ih => rw [List.foldl_cons, ih (step init b), hs]

theorem assignClusters_lookup_proj {γ : Type} (proj : GraphNode → γ)
    (hcl : ∀ gn c, proj { gn with cluster_id := c } = proj gn)
    (nodes : List (String × GraphNode)) (clusters : List (List String)) (p : String) :
    (dictLookup (assignClusters nodes clusters) p).map proj =
      (dictLookup nodes p).map proj := by
  unfold assignClusters
  apply foldl_lookup_proj
  intro acc b q
  apply foldl_lookup_proj
  intro acc2 path q2
  by_cases h : dictContains acc2 path = true
  · simp only [h, if_true]
    exact modify_lookup_proj proj _ (fun gn => hcl gn (some b.1)) acc2 path q2
  · simp [h]

theorem assignClusters_keys (nodes : List (String × GraphNode))
    (clusters : List (List String)) :
    (assignClusters nodes clusters).map (·.1) = nodes.map (·.1) := by
  unfold assignClusters
  apply foldl_keys
  intro acc b
  apply foldl_keys
  intro acc2 path
  by_cases h : dictContains acc2 path = true
  · simp only [h, if_true]
    exact dictModify_keys acc2 path _
  · simp [h]

theorem degreeFallback_lookup (nodes : List (String × GraphNode)) (p : String) :
    dictLookup (degreeFallback nodes) p =
      (dictLookup nodes p).map (fun gn =>
        { gn with centrality_score :=
            (gn.in_degree + gn.out_degree : ℚ) / ((max 1 (nodes.length - 1) : ℕ) : ℚ) }) := by
  unfold degreeFallback
  exact lookup_mapValues
    (fun gn => { gn with centrality_score :=
        (gn.in_degree + gn.out_degree : ℚ) / ((max 1 (nodes.length - 1) : ℕ) : ℚ) }) nodes p

theorem calculateCentrality_lookup_proj {γ : Type} (proj : GraphNode → γ)
    (hce : ∀ gn c, proj { gn with centrality_score := c } = proj gn)
    (pagerank : List String → List (String × String) → Option (List (String × ℚ)))
    (nodeIds : List String) (edges : List (String × String))
    (nodes : List (String × GraphNode)) (p : String) :
    (dictLookup (calculateCentrality pagerank nodeIds edges nodes) p).map proj =
      (dictLookup nodes p).map proj := by
  unfold calculateCentrality
  by_cases h0 : nodeIds.length = 0
  · simp [h0]
  · simp only [h0, if_false]
    cases hp : pagerank nodeIds edges with
    | none =>
      rw [degreeFallback_lookup]
      cases hl : dictLookup nodes p <;> simp [hce]
    | some scores =>
      apply foldl_lookup_proj
      intro acc b q
      by_cases h : dictContains acc b.1 = true
      · simp only [h, if_true]
        exact modify_lookup_proj proj _ (fun gn => hce gn b.2) acc b.1 q
      · simp [h]

theorem degreeFallback_keys (nodes : List (String × GraphNode)) :
    (degreeFallback nodes).map (·.1) = nodes.map (·.1) := by
  unfold degreeFallback
  exact mapValues_keys
    (fun gn => { gn with centrality_score :=
        (gn.in_degree + gn.out_degree : ℚ) / ((max 1 (nodes.length - 1) : ℕ) : ℚ) }) nodes

theorem calculateCentrality_keys
    (pagerank : List String → List (String × String) → Option (List (String × ℚ)))
    (nodeIds : List String) (edges : List (String × String))
    (nodes : List (String × GraphNode)) :
    (calculateCentrality pagerank nodeIds edges nodes).map (·.1) = nodes.map (·.1) := by
  unfold calculateCentrality
  by_cases h0 : nodeIds.length = 0
  · simp [h0]
  · simp only [h0, if_false]
    cases hp : pagerank nodeIds edges with
    | none => exact degreeFallback_keys nodes
    | some scores =>
      apply foldl_keys
      intro acc b
      by_cases h : dictContains acc b.1 = true
      · simp only [h, if_true]
        exact dictModify_keys acc b.1 _
      · simp [h]

theorem buildGraph_eq (env : BuildEnv) (fps : List String) :
    buildGraph env fps =
      { nodes := bFinalNodes env fps
        clusters := bClusters env fps
        hub_nodes := findHubNodes (bFinalNodes env fps)
        orphan_nodes := findOrphanNodes (bFinalNodes env fps)
        broken_links := (bProcessed env fps).2
        last_updated := some env.now } := rfl

theorem bFinalNodes_keys (env : BuildEnv) (fps : List String) :
    (bFinalNodes env fps).map (·.1) = (bNotes env fps).map (·.1) := by
  unfold bFinalNodes
  rw [calculateCentrality_keys, assignClusters_keys]
  unfold bWithDeg bProcessed
  rw [setDegrees_keys, processLinks_keys]
  unfold bNodes0
  exact mapValues_keys GraphNode.mk0 (bNotes env fps)

theorem bFinalNodes_lookup_projDeg (env : BuildEnv) (fps : List String) (p : String) :
    (dictLookup (bFinalNodes env fps) p).map projDeg =
      (dictLookup (bWithDeg env fps) p).map projDeg := by
  unfold bFinalNodes
  rw [calculateCentrality_lookup_proj projDeg (fun gn c => rfl),
    assignClusters_lookup_proj projDeg (fun gn c => rfl)]

/-- C2: in every graph returned by `build_graph` and in every graph returned
by `update_graph`, each node's `in_degree` equals the length of its
`incoming_links` list and its `out_degree` equals the length of its note's
`outgoing_links` list. -/
theorem degrees_equal_list_lengths :
    (∀ (env : BuildEnv) (fps : List String) (p : String) (gn : GraphNode),
      dictLookup (buildGraph env fps).nodes p = some gn →
        gn.in_degree = gn.incoming_links.length ∧
        gn.out_degree = gn.note.outgoing_links.length) ∧
    (∀ (env : BuildEnv) (g : KnowledgeGraph) (changed removed : List String)
        (p : String) (gn : GraphNode),
      dictLookup (updateGraph env g changed removed).nodes p = some gn →
        gn.in_degree = gn.incoming_links.length ∧
        gn.out_degree = gn.note.outgoing_links.length) := by
  constructor
  · intro env fps p gn h
    rw [buildGraph_eq] at h
    change dictLookup (bFinalNodes env fps) p = some gn at h
    have h2 := bFinalNodes_lookup_projDeg env fps p
    rw [h] at h2
    cases hl : dictLookup (bWithDeg env fps) p with
    | none => rw [hl] at h2; simp at h2
    | some gn0 =>
      rw [hl] at h2
      simp only [Option.map_some'] at h2
      have hproj : projDeg gn = projDeg gn0 := by injection h2
      unfold bWithDeg at hl
      rw [setDegrees_lookup] at hl
      cases hl2 : dictLookup (bProcessed env fps).1 p with
      | none => rw [hl2] at hl; simp at hl
      | some gn1 =>
        rw [hl2] at hl
        simp only [Option.map_some', Option.some.injEq] at hl
        rw [← hl] at hproj
        simp only [projDeg, Prod.mk.injEq] at hproj
        obtain ⟨e1, e2, e3, e4⟩ := hproj
        constructor
        · rw [e3, e2]
        · rw [e4, e1]
  · intro env g changed removed p gn h
    change dictLookup (uFinalNodes env g changed removed) p = some gn at h
    unfold uFinalNodes at h
    rw [setDegrees_lookup] at h
    cases hl : dictLookup
        ((allLinks env.parse env.resolve changed).foldl uApplyLink
          (dictUpdate (removed.foldl dictErase g.nodes)
            (newNodesDict env.parse env.resolve changed))) p with
    | none => rw [hl] at h; simp at h
    | some gn1 =>
      rw [hl] at h
      simp only [Option.map_some', Option.some.injEq] at h
      rw [← h]
      exact ⟨rfl, rfl⟩

/-- Witness for C2: the concrete build of `graphAB` stores a node for `B.md`
whose degree fields satisfy the invariant. -/
theorem degrees_equal_list_lengths_witness :
    dictLookup graphAB.nodes "B.md" = some gnBval ∧
      (gnBval.in_degree = gnBval.incoming_links.length ∧
        gnBval.out_degree = gnBval.note.outgoing_links.length) :=
  ⟨by with_unfolding_all rfl,
   degrees_equal_list_lengths.1 envAB ["R.md", "B.md"] "B.md" gnBval
     (by with_unfolding_all rfl)⟩

/-- C10: removing a document does not purge its links from other nodes'
incoming lists.  In `graphAB`, `R.md` links to `B.md`; after
`update_graph([], removed=[R.md])` the node `R.md` is gone from the mapping,
yet `B.md` still holds an incoming link whose `source_path` is `R.md`, and
the recomputed `in_degree` of `B.md` still counts it. -/
theorem removed_source_survives_in_incoming :
    dictContains graphAB.nodes "R.md" = true ∧
    dictContains (updateGraph envAB graphAB [] ["R.md"]).nodes "R.md" = false ∧
    (dictLookup (updateGraph envAB graphAB [] ["R.md"]).nodes "B.md").map
        (fun gn => (gn.in_degree, gn.incoming_links.map (·.source_path))) =
      some (1, ["R.md"]) := by
  refine ⟨?_, ?_, ?_⟩ <;> with_unfolding_all rfl

theorem dictContains_false_iff (d : List (String × α)) (k : String) :
    dictContains d k = false ↔ ∀ q ∈ d, ¬ q.1 = k := by
  simp [dictContains]

theorem uApplyLink_lookup_projCC (acc : List (String × GraphNode)) (b : Link) (q : String) :
    (dictLookup (uApplyLink acc b) q).map projCC = (dictLookup acc q).map projCC := by
  unfold uApplyLink
  cases ht : b.target_path with
  | none => rfl
  | some t =>
    by_cases h : (!b.is_broken && dictContains acc t) = true
    · simp only [h, if_true]
      exact modify_lookup_proj projCC
        (fun gn => { gn with incoming_links :=
            (gn.incoming_links.filter (fun l => !(l.source_path == b.source_path))) ++ [b] })
        (fun gn => rfl) acc t q
    · simp only [h]
      simp only [Bool.false_eq_true, if_false]

theorem setDegrees_lookup_projCC (d : List (String × GraphNode)) (q : String) :
    (dictLookup (setDegrees d) q).map projCC = (dictLookup d q).map projCC := by
  rw [setDegrees_lookup]
  cases h : dictLookup d q <;> simp [projCC]

/-- C6 (amended): `update_graph` leaves the graph-level `clusters`,
`hub_nodes` and `orphan_nodes` lists untouched, and every node that is
neither removed nor freshly re-parsed (its path is not a key of the
`new_nodes` dict) keeps its `cluster_id` and `centrality_score`.  (A node
that *is* re-parsed is replaced by a fresh `GraphNode` whose `cluster_id` is
unset and whose `centrality_score` is 0 — see the counterexample.) -/
theorem update_graph_analytics_frame (env : BuildEnv) (g : KnowledgeGraph)
    (changed removed : List String) :
    (updateGraph env g changed removed).clusters = g.clusters ∧
    (updateGraph env g changed removed).hub_nodes = g.hub_nodes ∧
    (updateGraph env g changed removed).orphan_nodes = g.orphan_nodes ∧
    ∀ p gn, dictLookup g.nodes p = some gn → ¬ p ∈ removed →
      dictContains (newNodesDict env.parse env.resolve changed) p = false →
      ∃ gn2, dictLookup (updateGraph env g changed removed).nodes p = some gn2 ∧
        gn2.cluster_id = gn.cluster_id ∧ gn2.centrality_score = gn.centrality_score := by
  refine ⟨rfl, rfl, rfl, ?_⟩
  intro p gn hg hrem hnew
  have hnodes : (updateGraph env g changed removed).nodes =
      uFinalNodes env g changed removed := rfl
  rw [hnodes]
  unfold uFinalNodes
  have h1 : dictLookup (removed.foldl dictErase g.nodes) p = some gn := by
    rw [dictLookup_foldl_erase _ _ _ hrem]
    exact hg
  have h2 : dictLookup (dictUpdate (removed.foldl dictErase g.nodes)
      (newNodesDict env.parse env.resolve changed)) p = some gn := by
    rw [dictLookup_update_untouched]
    · exact h1
    · exact (dictContains_false_iff _ _).1 hnew
  have h3 : (dictLookup ((allLinks env.parse env.resolve changed).foldl uApplyLink
      (dictUpdate (removed.foldl dictErase g.nodes)
        (newNodesDict env.parse env.resolve changed))) p).map projCC =
      some (projCC gn) := by
    rw [foldl_lookup_proj projCC uApplyLink
      (fun acc b q => uApplyLink_lookup_projCC acc b q), h2]
    rfl
  have h4 := setDegrees_lookup_projCC
    ((allLinks env.parse env.resolve changed).foldl uApplyLink
      (dictUpdate (removed.foldl dictErase g.nodes)
        (newNodesDict env.parse env.resolve changed))) p
  rw [h3] at h4
  cases hl : dictLookup (setDegrees ((allLinks env.parse env.resolve changed).foldl uApplyLink
      (dictUpdate (removed.foldl dictErase g.nodes)
        (newNodesDict env.parse env.resolve changed)))) p with
  | none => rw [hl] at h4; simp at h4
  | some gn2 =>
    rw [hl] at h4
    simp only [Option.map_some', Option.some.injEq] at h4
    refine ⟨gn2, rfl, ?_, ?_⟩
    · exact congrArg Prod.fst h4
    · exact congrArg Prod.snd h4

/-- Counterexample for C6 as frozen: a node that survives the update (it is
in `changed`, not `removed`) does *not* keep its `cluster_id` and
`centrality_score` — re-parsing replaces it with a fresh `GraphNode`.
Before `update_graph([B.md], [])` the node `B.md` of `graphAB` has
`cluster_id = 0` and centrality 1; afterwards its `cluster_id` is unset and
its centrality 0. -/
theorem update_graph_resets_changed_node :
    (dictLookup graphAB.nodes "B.md").map
        (fun gn => (gn.cluster_id, gn.centrality_score)) = some (some 0, 1) ∧
    (dictLookup (updateGraph envAB graphAB ["B.md"] []).nodes "B.md").map
        (fun gn => (gn.cluster_id, gn.centrality_score)) = some (none, 0) := by
  refine ⟨?_, ?_⟩ <;> with_unfolding_all rfl

/-- Witness for the amended C6: in the concrete update
`update_graph([B.md], [])` of `graphAB`, the untouched node `R.md` keeps its
`cluster_id` and `centrality_score`. -/
theorem update_graph_analytics_frame_witness :
    (updateGraph envAB graphAB ["B.md"] []).clusters = graphAB.clusters ∧
    ∃ gn2, dictLookup (updateGraph envAB graphAB ["B.md"] []).nodes "R.md" = some gn2 ∧
      gn2.cluster_id = gnRval.cluster_id ∧
      gn2.centrality_score = gnRval.centrality_score :=
  ⟨(update_graph_analytics_frame envAB graphAB ["B.md"] []).1,
   (update_graph_analytics_frame envAB graphAB ["B.md"] []).2.2.2 "R.md" gnRval
     (by with_unfolding_all rfl) (by decide) (by decide)⟩

theorem mem_allLinks (parse : String → Option Note) (resolve : Link → Link)
    (fps : List String) (l : Link) :
    l ∈ allLinks parse resolve fps ↔
      ∃ fp, fp ∈ fps ∧ ∃ n, parse fp = some n ∧
        ∃ l0, l0 ∈ n.outgoing_links ∧ l = resolve l0 := by
  induction fps with
  | nil => simp [allLinks]
  | cons fp rest ih =>
    cases hp : parse fp with
    | none =>
      simp only [allLinks, hp, List.nil_append, ih, List.mem_cons]
      constructor
      · rintro ⟨fp2, h1, h2⟩
        exact ⟨fp2, Or.inr h1, h2⟩
      · rintro ⟨fp2, h1 | h1, h2⟩
        · subst h1
          rcases h2 with ⟨n, hn, _⟩
          rw [hp] at hn
          cases hn
        · exact ⟨fp2, h1, h2⟩
    | some n =>
      simp only [allLinks, hp, List.mem_append, List.mem_map, ih, List.mem_cons]
      constructor
      · rintro (⟨l0, hl0, he⟩ | ⟨fp2, h1, h2⟩)
        · exact ⟨fp, Or.inl rfl, n, hp, l0, hl0, he.symm⟩
        · exact ⟨fp2, Or.inr h1, h2⟩
      · rintro ⟨fp2, h1 | h1, n2, hn2, l0, hl0, he⟩
        · subst h1
          rw [hp] at hn2
          cases hn2
          exact Or.inl ⟨l0, hl0, he.symm⟩
        · exact Or.inr ⟨fp2, h1, n2, hn2, l0, hl0, he⟩

theorem buildNotesDict_contains (parse : String → Option Note) (resolve : Link → Link)
    (fps : List String) (acc : List (String × Note)) (t : String) :
    dictContains (buildNotesDict parse resolve fps acc) t = true →
      dictContains acc t = true ∨ ∃ fp n, parse fp = some n ∧ n.path = t := by
  induction fps generalizing acc with
  | nil => exact fun h => Or.inl h
  | cons fp rest ih =>
    intro h
    cases hp : parse fp with
    | none =>
      rw [buildNotesDict, hp] at h
      exact ih acc h
    | some n =>
      rw [buildNotesDict, hp] at h
      rcases ih _ h with h2 | h2
      · rw [dictContains_insert] at h2
        rcases Bool.or_eq_true_iff.1 h2 with h3 | h3
        · exact Or.inl h3
        · exact Or.inr ⟨fp, n, hp, by simpa using h3⟩
      · exact Or.inr h2

theorem bNodes0_contains (env : BuildEnv) (fps : List String) (t : String) :
    dictContains (bNodes0 env fps) t = dictContains (bNotes env fps) t := by
  rw [dictContains_eq_keys, dictContains_eq_keys]
  unfold bNodes0
  rw [mapValues_keys]

theorem buildGraph_nodes_contains (env : BuildEnv) (fps : List String) (t : String) :
    dictContains (buildGraph env fps).nodes t = dictContains (bNodes0 env fps) t := by
  rw [buildGraph_eq]
  rw [dictContains_eq_keys, dictContains_eq_keys, bFinalNodes_keys]
  rw [← mapValues_keys GraphNode.mk0 (bNotes env fps)]
  rfl

/-- The `is_broken` flag written by `resolve_link` (links.py line 57) in
terms of the resolved target. -/
theorem resolve_link_broken_eq (fsExists : String → Bool)
    (w m : String → String → Option String) (l : Link) :
    (resolve_link fsExists w m l).is_broken =
      (match (resolve_link fsExists w m l).target_path with
       | none => true
       | some t => !fsExists t) := rfl

/-- C1 (amended): the links produced by `build_graph` are partitioned by the
test of builder.py line 55 — `broken_links` holds exactly the links that are
broken *or* whose target is not a key of the node mapping; every link not in
`broken_links` is non-broken with its target a key; and every link in
`broken_links` has a null target or a target absent from the mapping.  (The
frozen claim's further assertion that `is_broken = false` alone forces the
target to be a key fails: a non-broken link lands in `broken_links` whenever
its on-disk target is outside the built node set.)  The two
hypotheses record what `LinkResolver.resolve_link` guarantees (line 57) and
what holds of every parsed file (its `Note.path` is the parsed path, which
exists on disk). -/
theorem build_graph_link_partition (env : BuildEnv) (fsExists : String → Bool)
    (hres : ∀ l, (env.resolve l).is_broken =
      (match (env.resolve l).target_path with
       | none => true
       | some t => !fsExists t))
    (hparse : ∀ fp n, env.parse fp = some n → n.path = fp ∧ fsExists fp = true)
    (fps : List String) :
    (buildGraph env fps).broken_links =
      (bLinks env fps).filter (linkUnresolvedIn (buildGraph env fps).nodes) ∧
    (∀ l ∈ bLinks env fps, ¬ l ∈ (buildGraph env fps).broken_links →
      l.is_broken = false ∧
        ∃ t, l.target_path = some t ∧ dictContains (buildGraph env fps).nodes t = true) ∧
    (∀ l ∈ (buildGraph env fps).broken_links,
      l.target_path = none ∨
        ∀ t, l.target_path = some t → dictContains (buildGraph env fps).nodes t = false) := by
  have hkeys : ∀ l, linkUnresolvedIn (buildGraph env fps).nodes l =
      linkUnresolvedIn (bNodes0 env fps) l := by
    intro l
    cases ht : l.target_path with
    | none => simp [linkUnresolvedIn, ht]
    | some t => simp [linkUnresolvedIn, ht, buildGraph_nodes_contains]
  have hbroken : (buildGraph env fps).broken_links =
      (bLinks env fps).filter (linkUnresolvedIn (bNodes0 env fps)) := by
    rw [buildGraph_eq]
    exact processLinks_broken (bNodes0 env fps) (bLinks env fps)
  have habsent : ∀ t, fsExists t = false →
      dictContains (buildGraph env fps).nodes t = false := by
    intro t hfs
    cases hc : dictContains (buildGraph env fps).nodes t with
    | false => rfl
    | true =>
      exfalso
      rw [buildGraph_nodes_contains, bNodes0_contains] at hc
      rcases buildNotesDict_contains env.parse env.resolve fps [] t hc with h | ⟨fp, n, hn, hp⟩
      · simp [dictContains_nil] at h
      · rcases hparse fp n hn with ⟨e1, e2⟩
        rw [e1] at hp
        rw [hp] at e2
        rw [e2] at hfs
        cases hfs
  refine ⟨?_, ?_, ?_⟩
  · rw [hbroken]
    apply List.filter_congr
    intro l _
    exact (hkeys l).symm
  · intro l hl hnb
    have hcond : linkUnresolvedIn (bNodes0 env fps) l = false := by
      cases hc : linkUnresolvedIn (bNodes0 env fps) l with
      | false => rfl
      | true => exact absurd (hbroken ▸ List.mem_filter.2 ⟨hl, hc⟩) hnb
    rcases (linkUnresolvedIn_eq_false _ _).1 hcond with ⟨hb, t, ht, hc⟩
    refine ⟨hb, t, ht, ?_⟩
    rw [buildGraph_nodes_contains]
    exact hc
  · intro l hl
    rw [hbroken] at hl
    rcases List.mem_filter.1 hl with ⟨hmem, hcond⟩
    cases ht : l.target_path with
    | none => exact Or.inl rfl
    | some t =>
      refine Or.inr ?_
      intro t2 ht2
      cases ht2
      by_cases hbk : l.is_broken = true
      · -- a broken link's target does not exist on disk, so it was never parsed
        rcases (mem_allLinks env.parse env.resolve fps l).1 hmem with
          ⟨fp, _, n, _, l0, _, he⟩
        have := hres l0
        rw [← he, ht] at this
        rw [hbk] at this
        have hfs : fsExists t = false := by
          cases hfe : fsExists t with
          | false => rfl
          | true => simp [hfe] at this
        exact habsent t hfs
      · -- not broken: the filter condition forces the target to miss the mapping
        have hb2 : l.is_broken = false := by
          cases h2 : l.is_broken with
          | false => rfl
          | true => exact absurd h2 hbk
        rcases (linkUnresolvedIn_eq_true _ _).1 hcond with h3 | h3 | ⟨t2, ht2, hc2⟩
        · rw [hb2] at h3
          cases h3
        · rw [ht] at h3
          cases h3
        · rw [ht] at ht2
          cases ht2
          rw [buildGraph_nodes_contains]
          exact hc2

theorem parseAB_paths : ∀ fp n, parseAB fp = some n → n.path = fp ∧ fsAB fp = true := by
  intro fp n h
  by_cases h1 : fp = "R.md"
  · subst h1
    simp [parseAB] at h
    rw [← h]
    exact ⟨rfl, rfl⟩
  · by_cases h2 : fp = "B.md"
    · subst h2
      simp [parseAB, h1] at h
      rw [← h]
      exact ⟨rfl, rfl⟩
    · simp [parseAB, h1, h2] at h

theorem resolveAB_broken_eq : ∀ l, (envAB.resolve l).is_broken =
    (match (envAB.resolve l).target_path with
     | none => true
     | some t => !fsAB t) :=
  fun l => resolve_link_broken_eq fsAB wikiAB (fun _ _ => none) l

/-- Counterexample for C1 as frozen: `build_graph` invoked on the file set
`[R.md]` alone (with `B.md` still on disk and indexed by the resolver)
produces a link whose `is_broken` flag is `false` but whose target `B.md` is
*not* a key of the node mapping — refuting "a link whose is_broken flag is
false always has a target that is a key of the node mapping".  (The link is
recorded in `broken_links`, as the amended partition states.) -/
theorem nonbroken_link_target_not_key :
    (buildGraph envAB ["R.md"]).broken_links = [linkRBres] ∧
    linkRBres.is_broken = false ∧
    linkRBres.target_path = some "B.md" ∧
    dictContains (buildGraph envAB ["R.md"]).nodes "B.md" = false := by
  refine ⟨?_, ?_, ?_, ?_⟩ <;> with_unfolding_all rfl

/-- Witness for the amended C1 on the concrete two-file build `graphAB`:
the partition equation holds, and the one produced link — absent from
`broken_links` — is non-broken with its target a key of the mapping. -/
theorem build_graph_link_partition_witness :
    graphAB.broken_links =
      (bLinks envAB ["R.md", "B.md"]).filter (linkUnresolvedIn graphAB.nodes) ∧
    (linkRBres.is_broken = false ∧
      ∃ t, linkRBres.target_path = some t ∧ dictContains graphAB.nodes t = true) :=
  ⟨(build_graph_link_partition envAB fsAB resolveAB_broken_eq parseAB_paths
      ["R.md", "B.md"]).1,
   (build_graph_link_partition envAB fsAB resolveAB_broken_eq parseAB_paths
      ["R.md", "B.md"]).2.1 linkRBres (by decide) (by decide)⟩

/-! ### Connected-component invariant lemmas -/

theorem ccAddNode_inv (S : List (String × String)) (comps : List (List String)) (v : String)
    (h : ccInv S comps) : ccInv S (ccAddNode comps v) := by
  intro c hc
  unfold ccAddNode at hc
  by_cases ha : (comps.any (fun c => c.contains v)) = true
  · rw [if_pos ha] at hc
    exact h c hc
  · rw [if_neg ha] at hc
    rcases List.mem_append.1 hc with h1 | h1
    · exact h c h1
    · intro hlen
      simp only [List.mem_singleton] at h1
      subst h1
      simp at hlen

theorem ccFind_mem_or (S : List (String × String)) (comps : List (List String)) (a : String)
    (h : ccInv S comps) :
    ∀ v ∈ ccFind comps a, (∃ e ∈ S, e.1 = v ∨ e.2 = v) ∨ v = a := by
  intro v hv
  unfold ccFind at hv
  cases hf : comps.find? (fun c => c.contains a) with
  | none =>
    rw [hf] at hv
    simp only [Option.getD_none, List.mem_singleton] at hv
    exact Or.inr hv
  | some c =>
    rw [hf] at hv
    simp only [Option.getD_some] at hv
    have hcm : c ∈ comps := List.mem_of_find?_eq_some hf
    have haa : a ∈ c := by
      have hca := List.find?_some hf
      simpa using hca
    by_cases hlen : 2 ≤ c.length
    · exact Or.inl (h c hcm hlen v hv)
    · right
      cases c with
      | nil => cases haa
      | cons x xs =>
        cases xs with
        | nil =>
          simp only [List.mem_singleton] at hv haa
          rw [hv, haa]
        | cons y ys =>
          exfalso
          apply hlen
          simp only [List.length_cons]
          omega

theorem ccAddEdge_inv (S : List (String × String)) (comps : List (List String)) (a b : String)
    (h : ccInv S comps)
    (ha : ∃ e ∈ S, e.1 = a ∨ e.2 = a) (hb : ∃ e ∈ S, e.1 = b ∨ e.2 = b) :
    ccInv S (ccAddEdge comps a b) := by
  have h2 : ccInv S (ccAddNode (ccAddNode comps a) b) :=
    ccAddNode_inv S _ b (ccAddNode_inv S comps a h)
  unfold ccAddEdge
  by_cases hcb : ((ccFind (ccAddNode (ccAddNode comps a) b) a).contains b) = true
  · simp only [hcb, if_true]
    exact h2
  · simp only [hcb]
    simp only [Bool.false_eq_true, if_false]
    intro c hc hlen w hw
    rcases List.mem_append.1 hc with h1 | h1
    · exact h2 c (List.mem_of_mem_filter h1) hlen w hw
    · simp only [List.mem_singleton] at h1
      subst h1
      rcases List.mem_append.1 hw with h3 | h3
      · rcases ccFind_mem_or S _ a h2 w h3 with h4 | h4
        · exact h4
        · subst h4
          exact ha
      · rcases ccFind_mem_or S _ b h2 w h3 with h4 | h4
        · exact h4
        · subst h4
          exact hb

theorem foldl_ccAddEdge_inv (S : List (String × String)) :
    ∀ (l : List (String × String)), (∀ e ∈ l, e ∈ S) →
      ∀ comps, ccInv S comps →
        ccInv S (l.foldl (fun comps e => ccAddEdge comps e.1 e.2) comps) := by
  intro l
  induction l with
  | nil => exact fun _ comps h => h
  | cons e rest ih =>
    intro hsub comps h
    rw [List.foldl_cons]
    apply ih (fun e2 he2 => hsub e2 (List.mem_cons_of_mem e he2))
    apply ccAddEdge_inv S comps e.1 e.2 h
    · exact ⟨e, hsub e (List.mem_cons_self e rest), Or.inl rfl⟩
    · exact ⟨e, hsub e (List.mem_cons_self e rest), Or.inr rfl⟩

theorem foldl_ccAddNode_inv (S : List (String × String)) (l : List String) :
    ∀ comps, ccInv S comps → ccInv S (l.foldl ccAddNode comps) := by
  induction l with
  | nil => exact fun comps h => h
  | cons v rest ih =>
    intro comps h
    rw [List.foldl_cons]
    exact ih _ (ccAddNode_inv S comps v h)

theorem connectedComponents_touch (nodes : List String) (edges : List (String × String)) :
    ∀ c ∈ connectedComponents nodes edges, 2 ≤ c.length →
      ∀ v ∈ c, ∃ e ∈ edges, e.1 = v ∨ e.2 = v := by
  unfold connectedComponents
  apply foldl_ccAddEdge_inv edges edges (fun e he => he)
  apply foldl_ccAddNode_inv
  intro c hc
  cases hc

/-! ### Key uniqueness and membership lemmas -/

theorem dictInsert_keys_nodup (d : List (String × α)) (k : String) (v : α)
    (h : (d.map (·.1)).Nodup) : ((dictInsert d k v).map (·.1)).Nodup := by
  rw [dictInsert_keys]
  by_cases hc : dictContains d k = true
  · rw [if_pos hc]
    exact h
  · rw [if_neg hc]
    have hk : ¬ k ∈ d.map (·.1) := by
      intro hmem
      apply hc
      rw [dictContains_eq_keys]
      simp only [List.any_eq_true]
      exact ⟨k, hmem, by simp⟩
    exact List.Nodup.append h (List.nodup_singleton k)
      (fun x hx hx2 => by
        simp only [List.mem_singleton] at hx2
        exact hk (hx2 ▸ hx))

theorem buildNotesDict_keys_nodup (parse : String → Option Note) (resolve : Link → Link)
    (fps : List String) :
    ∀ acc : List (String × Note), (acc.map (·.1)).Nodup →
      ((buildNotesDict parse resolve fps acc).map (·.1)).Nodup := by
  induction fps with
  | nil => exact fun acc h => h
  | cons fp rest ih =>
    intro acc h
    cases hp : parse fp with
    | none =>
      rw [buildNotesDict, hp]
      exact ih acc h
    | some n =>
      rw [buildNotesDict, hp]
      exact ih _ (dictInsert_keys_nodup acc n.path _ h)

theorem bFinalNodes_keys_nodup (env : BuildEnv) (fps : List String) :
    ((bFinalNodes env fps).map (·.1)).Nodup := by
  rw [bFinalNodes_keys]
  exact buildNotesDict_keys_nodup env.parse env.resolve fps [] List.nodup_nil

theorem dictLookup_eq_some_of_mem (d : List (String × α))
    (hnd : (d.map (·.1)).Nodup) (p : String) (v : α) (h : (p, v) ∈ d) :
    dictLookup d p = some v := by
  induction d with
  | nil => cases h
  | cons q rest ih =>
    rcases List.mem_cons.1 h with h1 | h1
    · rw [← h1, dictLookup_cons, if_pos rfl]
    · have hq : ¬ q.1 = p := by
        intro e
        have : p ∈ rest.map (·.1) := List.mem_map.2 ⟨(p, v), h1, rfl⟩
        rw [List.map_cons] at hnd
        exact (List.nodup_cons.1 hnd).1 (e ▸ this)
      rw [dictLookup_cons, if_neg hq]
      exact ih (List.nodup_cons.1 (List.map_cons _ q rest ▸ hnd)).2 h1

theorem mem_of_dictLookup_eq_some (d : List (String × α)) (p : String) (v : α)
    (h : dictLookup d p = some v) : (p, v) ∈ d := by
  induction d with
  | nil => cases h
  | cons q rest ih =>
    rw [dictLookup_cons] at h
    by_cases hq : q.1 = p
    · rw [if_pos hq] at h
      have hv : q.2 = v := by injection h
      have hqe : q = (p, v) := by rw [← hq, ← hv]
      rw [← hqe]
      exact List.mem_cons_self q rest
    · rw [if_neg hq] at h
      exact List.mem_cons_of_mem q (ih h)

theorem mem_findOrphanNodes (nodes : List (String × GraphNode)) (p : String) :
    p ∈ findOrphanNodes nodes ↔
      ∃ gn, (p, gn) ∈ nodes ∧ gn.in_degree = 0 ∧ gn.out_degree = 0 := by
  unfold findOrphanNodes
  simp only [List.mem_map, List.mem_filter]
  constructor
  · rintro ⟨q, ⟨hm, hc⟩, he⟩
    refine ⟨q.2, ?_, ?_, ?_⟩
    · rw [← he]
      exact hm
    · simpa using (Bool.and_eq_true_iff.1 hc).1
    · simpa using (Bool.and_eq_true_iff.1 hc).2
  · rintro ⟨gn, hm, h1, h2⟩
    exact ⟨(p, gn), ⟨hm, by simp [h1, h2]⟩, rfl⟩

theorem mem_nxEdges (nodes : List (String × GraphNode)) (links : List Link)
    (e : String × String) :
    e ∈ nxEdges nodes links ↔
      ∃ l ∈ links, l.is_broken = false ∧ l.target_path = some e.2 ∧
        dictContains nodes e.2 = true ∧ e.1 = l.source_path := by
  unfold nxEdges
  rw [List.mem_filterMap]
  constructor
  · rintro ⟨l, hl, hf⟩
    cases ht : l.target_path with
    | none => rw [ht] at hf; cases hf
    | some t =>
      rw [ht] at hf
      change (if (!l.is_broken && dictContains nodes t) = true
        then some (l.source_path, t) else none) = some e at hf
      by_cases hc : (!l.is_broken && dictContains nodes t) = true
      · rw [if_pos hc] at hf
        cases hf
        rcases Bool.and_eq_true_iff.1 hc with ⟨h1, h2⟩
        exact ⟨l, hl, by simpa using h1, ht, h2, rfl⟩
      · rw [if_neg hc] at hf
        cases hf
  · rintro ⟨l, hl, h1, h2, h3, h4⟩
    refine ⟨l, hl, ?_⟩
    rw [h2]
    show (if (!l.is_broken && dictContains nodes e.2) = true
      then some (l.source_path, e.2) else none) = some e
    rw [if_pos (by simp [h1, h3]), ← h4]

theorem bWithDeg_keys (env : BuildEnv) (fps : List String) :
    (bWithDeg env fps).map (·.1) = (bNodes0 env fps).map (·.1) := by
  unfold bWithDeg bProcessed
  rw [setDegrees_keys, processLinks_keys]

theorem buildNotesDict_lookup (parse : String → Option Note) (resolve : Link → Link)
    (hpath : ∀ fp n, parse fp = some n → n.path = fp) (fps : List String) :
    ∀ (acc : List (String × Note)) (p : String) (nt : Note),
      dictLookup (buildNotesDict parse resolve fps acc) p = some nt →
        dictLookup acc p = some nt ∨
          ∃ n, parse p = some n ∧ nt = resolvedNote resolve n := by
  induction fps with
  | nil => exact fun acc p nt h => Or.inl h
  | cons fp rest ih =>
    intro acc p nt h
    cases hp : parse fp with
    | none =>
      rw [buildNotesDict, hp] at h
      exact ih acc p nt h
    | some n =>
      rw [buildNotesDict, hp] at h
      rcases ih _ p nt h with h2 | h2
      · rw [dictLookup_insert] at h2
        by_cases he : n.path = p
        · rw [if_pos he] at h2
          cases h2
          right
          refine ⟨n, ?_, rfl⟩
          rw [← he, hpath fp n hp]
          exact hp
        · rw [if_neg he] at h2
          exact Or.inl h2
      · exact Or.inr h2

/-- C3: in the graph returned by `build_graph`, the orphan list holds exactly
the node paths with `in_degree = 0` and `out_degree = 0`, and no orphan path
is a member of any cluster.  The hypotheses record facts of the real parser
and resolver: a parsed note's `path` is the parsed file path and its links'
`source_path` is that path, and `resolve_link` never changes `source_path`. -/
theorem orphans_exact_and_disjoint_from_clusters (env : BuildEnv)
    (hsrc : ∀ fp n, env.parse fp = some n →
      n.path = fp ∧ ∀ l ∈ n.outgoing_links, l.source_path = fp)
    (hressrc : ∀ l, (env.resolve l).source_path = l.source_path)
    (fps : List String) :
    (∀ p, p ∈ (buildGraph env fps).orphan_nodes ↔
      ∃ gn, dictLookup (buildGraph env fps).nodes p = some gn ∧
        gn.in_degree = 0 ∧ gn.out_degree = 0) ∧
    (∀ p ∈ (buildGraph env fps).orphan_nodes,
      ∀ c ∈ (buildGraph env fps).clusters, ¬ p ∈ c) := by
  have ha : ∀ p, p ∈ (buildGraph env fps).orphan_nodes ↔
      ∃ gn, dictLookup (bFinalNodes env fps) p = some gn ∧
        gn.in_degree = 0 ∧ gn.out_degree = 0 := by
    intro p
    have horph : (buildGraph env fps).orphan_nodes =
        findOrphanNodes (bFinalNodes env fps) := by rw [buildGraph_eq]
    rw [horph, mem_findOrphanNodes]
    constructor
    · rintro ⟨gn, hm, h1, h2⟩
      exact ⟨gn, dictLookup_eq_some_of_mem _ (bFinalNodes_keys_nodup env fps) p gn hm,
        h1, h2⟩
    · rintro ⟨gn, hl, h1, h2⟩
      exact ⟨gn, mem_of_dictLookup_eq_some _ p gn hl, h1, h2⟩
  constructor
  · intro p
    rw [ha p]
    have : dictLookup (buildGraph env fps).nodes p = dictLookup (bFinalNodes env fps) p := by
      rw [buildGraph_eq]
    rw [this]
  · intro p hp c hc hpc
    obtain ⟨gn, hgn, hin, hout⟩ := (ha p).1 hp
    -- transfer the degree facts down to the processLinks stage
    have h2 := bFinalNodes_lookup_projDeg env fps p
    rw [hgn] at h2
    cases hl : dictLookup (bWithDeg env fps) p with
    | none => rw [hl] at h2; cases h2
    | some gn0 =>
    rw [hl] at h2
    simp only [Option.map_some', Option.some.injEq] at h2
    have hl' := hl
    unfold bWithDeg at hl'
    rw [setDegrees_lookup] at hl'
    cases hl2 : dictLookup (bProcessed env fps).1 p with
    | none => rw [hl2] at hl'; cases hl'
    | some gn1 =>
    rw [hl2] at hl'
    simp only [Option.map_some', Option.some.injEq] at hl'
    have hl3 : dictLookup (bProcessed env fps).1 p =
        (dictLookup (bNodes0 env fps) p).map
          (addIncomings ((bLinks env fps).filter (incomingFor (bNodes0 env fps) p))) := by
      unfold bProcessed
      exact processLinks_lookup (bNodes0 env fps) (bLinks env fps) p
    rw [hl2] at hl3
    cases hz : dictLookup (bNodes0 env fps) p with
    | none => rw [hz] at hl3; cases hl3
    | some gnz =>
    rw [hz] at hl3
    simp only [Option.map_some', Option.some.injEq] at hl3
    have hz2 : dictLookup (bNodes0 env fps) p =
        (dictLookup (bNotes env fps) p).map GraphNode.mk0 := by
      unfold bNodes0
      exact lookup_mapValues GraphNode.mk0 (bNotes env fps) p
    rw [hz] at hz2
    cases hnt : dictLookup (bNotes env fps) p with
    | none => rw [hnt] at hz2; cases hz2
    | some nt =>
    rw [hnt] at hz2
    simp only [Option.map_some', Option.some.injEq] at hz2
    -- unpack the projections
    simp only [projDeg, Prod.mk.injEq] at h2
    obtain ⟨e1, e2, e3, e4⟩ := h2
    -- gn0 comes from setting degrees on gn1
    have hin0 : gn1.incoming_links.length = 0 := by
      have e3b : gn.in_degree = gn1.incoming_links.length := by rw [e3, ← hl']
      rw [← e3b]
      exact hin
    have hout0 : gn1.note.outgoing_links.length = 0 := by
      have e4b : gn.out_degree = gn1.note.outgoing_links.length := by rw [e4, ← hl']
      rw [← e4b]
      exact hout
    -- gn1's incoming links are exactly the filtered links appended to mk0's []
    have hF : (bLinks env fps).filter (incomingFor (bNodes0 env fps) p) = [] := by
      have : gn1.incoming_links =
          gnz.incoming_links ++ (bLinks env fps).filter (incomingFor (bNodes0 env fps) p) := by
        rw [hl3]
        rfl
      rw [hz2] at this
      simp only [GraphNode.mk0, List.nil_append] at this
      rw [this] at hin0
      exact List.length_eq_zero.1 hin0
    have hnoteg : gn1.note = nt := by
      rw [hl3, hz2]
      rfl
    have hout1 : nt.outgoing_links = [] := by
      rw [hnoteg] at hout0
      exact List.length_eq_zero.1 hout0
    -- the orphan p touches no edge
    have hnoedge : ∀ e ∈ bEdges env fps, ¬ (e.1 = p ∨ e.2 = p) := by
      intro e he hor
      unfold bEdges at he
      rcases (mem_nxEdges _ _ e).1 he with ⟨l, hlm, hb, ht, hcont, hsl⟩
      rcases hor with h5 | h5
      · -- p is the source: p's stored note would own the link, but it has none
        rcases (mem_allLinks env.parse env.resolve fps l).1 hlm with
          ⟨fp, _, n, hn, l0, hl0, hle⟩
        have hsp : l.source_path = fp := by
          rw [hle, hressrc l0]
          exact (hsrc fp n hn).2 l0 hl0
        have hfp : fp = p := by
          rw [← hsp, ← hsl, h5]
        rcases buildNotesDict_lookup env.parse env.resolve
            (fun fp2 n2 h2 => (hsrc fp2 n2 h2).1) fps [] p nt hnt with h6 | ⟨n2, hn2, hnt2⟩
        · cases h6
        · rw [hfp] at hn
          rw [hn] at hn2
          cases hn2
          rw [hnt2] at hout1
          unfold resolvedNote at hout1
          simp only at hout1
          have : l0 ∈ n.outgoing_links := hl0
          rw [List.map_eq_nil_iff.1 hout1] at this
          cases this
      · -- p is the target: the link would have been appended to p's incoming list
        rw [h5] at ht hcont
        have hcont0 : dictContains (bNodes0 env fps) p = true := by
          rw [dictContains_eq_keys] at hcont ⊢
          rw [← bWithDeg_keys env fps]
          exact hcont
        have hfor : incomingFor (bNodes0 env fps) p l = true := by
          unfold incomingFor
          rw [(linkUnresolvedIn_eq_false _ _).2 ⟨hb, p, ht, hcont0⟩]
          simp [ht]
        have := List.filter_eq_nil_iff.1 hF l hlm
        rw [hfor] at this
        cases this rfl
    -- but p sits in a cluster, whose members all touch edges
    have hcc : c ∈ connectedComponents (bNodeIds env fps) (bEdges env fps) ∧
        1 < c.length := by
      have hcl : (buildGraph env fps).clusters = bClusters env fps := by rw [buildGraph_eq]
      rw [hcl] at hc
      unfold bClusters detectClusters at hc
      rcases List.mem_filter.1 hc with ⟨h7, h8⟩
      exact ⟨h7, by simpa using h8⟩
    rcases connectedComponents_touch (bNodeIds env fps) (bEdges env fps) c hcc.1
        (by omega) p hpc with ⟨e, he, hor⟩
    exact hnoedge e he hor

theorem parseABC_paths : ∀ fp n, parseABC fp = some n →
    n.path = fp ∧ ∀ l ∈ n.outgoing_links, l.source_path = fp := by
  intro fp n h
  by_cases h1 : fp = "R.md"
  · subst h1
    simp [parseABC] at h
    rw [← h]
    exact ⟨rfl, by intro l hl; simp [noteR, List.mem_singleton] at hl; rw [hl]; rfl⟩
  · by_cases h2 : fp = "B.md"
    · subst h2
      simp [parseABC, h1] at h
      rw [← h]
      exact ⟨rfl, by intro l hl; simp [noteB] at hl⟩
    · by_cases h3 : fp = "C.md"
      · subst h3
        simp [parseABC, h1, h2] at h
        rw [← h]
        exact ⟨rfl, by intro l hl; simp [noteC] at hl⟩
      · simp [parseABC, h1, h2, h3] at h

theorem resolveABC_source : ∀ l, (envABC.resolve l).source_path = l.source_path :=
  fun l => resolve_link_source fsABC wikiAB (fun _ _ => none) l

/-- Witness for C3: in the concrete three-file build `graphABC` (a linked
pair plus an isolated note), the isolated note `C.md` is an orphan with both
degrees zero and is not a member of the one cluster. -/
theorem orphans_exact_and_disjoint_witness :
    ("C.md" ∈ graphABC.orphan_nodes ↔
      ∃ gn, dictLookup graphABC.nodes "C.md" = some gn ∧
        gn.in_degree = 0 ∧ gn.out_degree = 0) ∧
    ¬ "C.md" ∈ ["R.md", "B.md"] :=
  ⟨(orphans_exact_and_disjoint_from_clusters envABC parseABC_paths resolveABC_source
      ["R.md", "B.md", "C.md"]).1 "C.md",
   (orphans_exact_and_disjoint_from_clusters envABC parseABC_paths resolveABC_source
      ["R.md", "B.md", "C.md"]).2 "C.md" (by decide) ["R.md", "B.md"]
     (by with_unfolding_all decide)⟩

/-! ### Cache lemmas -/

theorem dictContains_iff_exists_mem (d : List (String × α)) (k : String) :
    dictContains d k = true ↔ ∃ q ∈ d, q.1 = k := by
  simp [dictContains, List.any_eq_true]

theorem dictContains_erase_self (d : List (String × α)) (k : String) :
    dictContains (dictErase d k) k = false := by
  cases hc : dictContains (dictErase d k) k with
  | false => rfl
  | true =>
    exfalso
    rcases (dictContains_iff_lookup _ k).1 hc with ⟨v, hv⟩
    rw [dictLookup_erase, if_pos rfl] at hv
    cases hv

theorem is_cache_valid_iff (cached current : List (String × Nat)) :
    is_cache_valid cached current = true ↔
      ((∀ k, dictContains cached k = true ↔ dictContains current k = true) ∧
        ∀ q ∈ cached, dictLookup current q.1 = some q.2) := by
  unfold is_cache_valid
  simp only [Bool.and_eq_true, List.all_eq_true]
  constructor
  · rintro ⟨⟨h1, h2⟩, h3⟩
    refine ⟨?_, ?_⟩
    · intro k
      constructor
      · intro hk
        rcases (dictContains_iff_exists_mem cached k).1 hk with ⟨q, hq, he⟩
        rw [← he]
        exact h1 q hq
      · intro hk
        rcases (dictContains_iff_exists_mem current k).1 hk with ⟨q, hq, he⟩
        rw [← he]
        exact h2 q hq
    · intro q hq
      have := h3 q hq
      simpa using this
  · rintro ⟨h1, h2⟩
    refine ⟨⟨?_, ?_⟩, ?_⟩
    · intro q hq
      exact (h1 q.1).1 ((dictContains_iff_exists_mem cached q.1).2 ⟨q, hq, rfl⟩)
    · intro q hq
      exact (h1 q.1).2 ((dictContains_iff_exists_mem current q.1).2 ⟨q, hq, rfl⟩)
    · intro q hq
      simpa using h2 q hq

/-- C4: `load_cache` returns a stored graph only when the stored fingerprint
matches the current directory walk exactly (same key set, every timestamp
equal); a version mismatch or any single added file, removed file, or
changed timestamp makes `_is_cache_valid` false, and an invalid fingerprint
makes `load_cache` return nothing (forcing a rebuild). -/
theorem cache_validity_exact_fingerprint :
    (∀ (disk : CacheDisk) (current : List (String × Nat)) (m : CacheMetadata)
        (g : KnowledgeGraph),
      disk.metadata_file = some (some m) →
      load_cache disk current = some g →
        disk.cache_file = some (some g) ∧ m.version = some CACHE_VERSION ∧
          is_cache_valid m.file_timestamps current = true) ∧
    (∀ cached current : List (String × Nat),
      is_cache_valid cached current = true ↔
        ((∀ k, dictContains cached k = true ↔ dictContains current k = true) ∧
          ∀ q ∈ cached, dictLookup current q.1 = some q.2)) ∧
    (∀ cached current : List (String × Nat),
      is_cache_valid cached current = true →
        (∀ k t, dictContains current k = false →
          is_cache_valid cached (current ++ [(k, t)]) = false) ∧
        (∀ k, dictContains current k = true →
          is_cache_valid cached (dictErase current k) = false) ∧
        (∀ k t t2, dictLookup current k = some t → ¬ t2 = t →
          is_cache_valid cached (dictInsert current k t2) = false)) ∧
    (∀ (disk : CacheDisk) (current : List (String × Nat)) (m : CacheMetadata),
      disk.metadata_file = some (some m) →
      is_cache_valid m.file_timestamps current = false →
        load_cache disk current = none) := by
  refine ⟨?_, is_cache_valid_iff, ?_, ?_⟩
  · rintro ⟨cf, mf⟩ current m g hm hl
    simp only at hm
    subst hm
    unfold load_cache at hl
    cases cf with
    | none => cases hl
    | some blob =>
      simp only at hl
      by_cases hv : (m.version == some CACHE_VERSION) = true
      · rw [hv] at hl
        simp only [Bool.not_true] at hl
        simp only [Bool.false_eq_true, if_false] at hl
        by_cases hval : is_cache_valid m.file_timestamps current = true
        · rw [hval] at hl
          simp only [Bool.not_true] at hl
          simp only [Bool.false_eq_true, if_false] at hl
          cases blob with
          | none => cases hl
          | some g2 =>
            cases hl
            exact ⟨rfl, by simpa using hv, hval⟩
        · rw [Bool.eq_false_iff.2 hval] at hl
          simp at hl
      · rw [Bool.eq_false_iff.2 hv] at hl
        simp at hl
  · intro cached current hvalid
    have hiff := (is_cache_valid_iff cached current).1 hvalid
    refine ⟨?_, ?_, ?_⟩
    · intro k t hfresh
      cases h2 : is_cache_valid cached (current ++ [(k, t)]) with
      | false => rfl
      | true =>
        exfalso
        have h3 := (is_cache_valid_iff _ _).1 h2
        have hk : dictContains (current ++ [(k, t)]) k = true := by
          rw [dictContains_append]
          have hone : dictContains [(k, t)] k = true := by simp [dictContains]
          rw [hone, Bool.or_true]
        have hk2 := (h3.1 k).2 hk
        have hk3 := (hiff.1 k).1 hk2
        rw [hfresh] at hk3
        cases hk3
    · intro k hhad
      cases h2 : is_cache_valid cached (dictErase current k) with
      | false => rfl
      | true =>
        exfalso
        have h3 := (is_cache_valid_iff _ _).1 h2
        have hk2 := (hiff.1 k).2 hhad
        have hk4 := (h3.1 k).1 hk2
        rw [dictContains_erase_self] at hk4
        cases hk4
    · intro k t t2 hlook hne
      cases h2 : is_cache_valid cached (dictInsert current k t2) with
      | false => rfl
      | true =>
        exfalso
        have h3 := (is_cache_valid_iff _ _).1 h2
        have hcur : dictContains current k = true :=
          (dictContains_iff_lookup current k).2 ⟨t, hlook⟩
        have hck : dictContains cached k = true := (hiff.1 k).2 hcur
        rcases (dictContains_iff_exists_mem cached k).1 hck with ⟨q, hq, he⟩
        have h4 := hiff.2 q hq
        rw [he, hlook] at h4
        have h5 := h3.2 q hq
        rw [he, dictLookup_insert, if_pos rfl] at h5
        have : t2 = q.2 := by injection h5
        have h6 : t = q.2 := by injection h4
        exact hne (this.trans h6.symm)
  · rintro ⟨cf, mf⟩ current m hm hinvalid
    simp only at hm
    subst hm
    unfold load_cache
    cases cf with
    | none => rfl
    | some blob =>
      simp only
      by_cases hv : (m.version == some CACHE_VERSION) = true
      · rw [hv]
        simp only [Bool.not_true]
        simp only [Bool.false_eq_true, if_false]
        rw [hinvalid]
        simp
      · rw [Bool.eq_false_iff.2 hv]
        simp

/-- Witness for C4: the stored fingerprint `fpStored` validates against an
identical walk and `load_cache` hands back the stored graph; bumping one
timestamp invalidates it. -/
theorem cache_validity_exact_fingerprint_witness :
    (diskStored.cache_file = some (some emptyKG) ∧
      metaStored.version = some CACHE_VERSION ∧
      is_cache_valid metaStored.file_timestamps fpStored = true) ∧
    is_cache_valid fpStored (dictInsert fpStored "a.md" 101) = false :=
  ⟨cache_validity_exact_fingerprint.1 diskStored fpStored metaStored emptyKG rfl
     (by decide),
   (cache_validity_exact_fingerprint.2.2.1 fpStored fpStored (by decide)).2.2
     "a.md" 100 101 (by decide) (by decide)⟩

/-- C5 (code bug): a failing write during `save_cache` does *not* delete the
partially written cache file and does *not* re-raise the original error —
evaluating the handler `except (IOError, pickle.PickleError,
json.JSONEncodeError)` raises `AttributeError` (Python's `json` module has
no attribute `JSONEncodeError`), skipping the `clear_cache()` rollback.
The first equation evaluates the code's behaviour at the failing input; the
second evaluates what manager.py lines 76–79 are documented to do. -/
theorem save_cache_failure_keeps_partial_file :
    save_cache { cache_file := none, metadata_file := none }
        (WriteOutcome.fails PyExc.ioError (some "partial pickle bytes"))
        (WriteOutcome.ok "meta") =
      ({ cache_file := some "partial pickle bytes", metadata_file := none },
        some PyExc.attributeError) ∧
    save_cache_speced { cache_file := none, metadata_file := none }
        (WriteOutcome.fails PyExc.ioError (some "partial pickle bytes"))
        (WriteOutcome.ok "meta") =
      ({ cache_file := none, metadata_file := none }, some PyExc.ioError) :=
  ⟨rfl, rfl⟩

/-! ### Search merge lemmas -/

theorem mem_dedupFirst [DecidableEq α] (l : List α) :
    ∀ (seen : List α) (x : α), x ∈ dedupFirst seen l ↔ x ∈ l ∧ ¬ x ∈ seen := by
  induction l with
  | nil => simp [dedupFirst]
  | cons y rest ih =>
    intro seen x
    unfold dedupFirst
    by_cases hy : y ∈ seen
    · rw [if_pos hy, ih]
      constructor
      · rintro ⟨h1, h2⟩
        exact ⟨List.mem_cons_of_mem y h1, h2⟩
      · rintro ⟨h1, h2⟩
        rcases List.mem_cons.1 h1 with h3 | h3
        · subst h3
          exact absurd hy h2
        · exact ⟨h3, h2⟩
    · rw [if_neg hy]
      constructor
      · intro h1
        rcases List.mem_cons.1 h1 with h3 | h3
        · subst h3
          exact ⟨List.mem_cons_self x rest, hy⟩
        · rcases (ih (y :: seen) x).1 h3 with ⟨h4, h5⟩
          exact ⟨List.mem_cons_of_mem y h4,
            fun h6 => h5 (List.mem_cons_of_mem y h6)⟩
      · rintro ⟨h1, h2⟩
        rcases List.mem_cons.1 h1 with h3 | h3
        · subst h3
          exact List.mem_cons_self x _
        · by_cases hxy : x = y
          · subst hxy
            exact List.mem_cons_self x _
          · exact List.mem_cons_of_mem y ((ih (y :: seen) x).2
              ⟨h3, fun h6 => by
                rcases List.mem_cons.1 h6 with h7 | h7
                · exact hxy h7
                · exact h2 h7⟩)

theorem mem_merge_of_group (results : List SearchResult) (p : String)
    (r : SearchResult) (hr : r ∈ results) (hp : r.note_path = p) :
    (match results.filter (fun r => r.note_path == p) with
     | [r] => r
     | group => mergeGroup p group) ∈ merge_results results := by
  unfold merge_results
  apply List.mem_map_of_mem
  rw [mem_dedupFirst]
  refine ⟨List.mem_map.2 ⟨r, hr, hp⟩, by simp⟩

/-- C7: in the merge step, a note hit by exactly one strategy passes through
unchanged; a note hit by several results with more than one distinct match
type gets the sum of the scores multiplied by 1.5; hence a note hit by two
strategies with positive scores ends up strictly above the stronger
single-strategy score. -/
theorem merge_results_cross_strategy_boost (results : List SearchResult) (p : String) :
    (∀ r, results.filter (fun r => r.note_path == p) = [r] →
      r ∈ merge_results results) ∧
    (∀ r1 r2 rest, results.filter (fun r => r.note_path == p) = r1 :: r2 :: rest →
      1 < (dedupFirst [] ((r1 :: r2 :: rest).map (·.match_type))).length →
      ∃ m ∈ merge_results results, m.note_path = p ∧
        m.score = (((r1 :: r2 :: rest).map (·.score)).sum) * (3 / 2)) ∧
    (∀ r1 r2, results.filter (fun r => r.note_path == p) = [r1, r2] →
      ¬ r1.match_type = r2.match_type → 0 < r1.score → 0 < r2.score →
      ∃ m ∈ merge_results results, m.note_path = p ∧
        max r1.score r2.score < m.score) := by
  have hofgroup : ∀ r, r ∈ results.filter (fun r => r.note_path == p) →
      r ∈ results ∧ r.note_path = p := by
    intro r hr
    rcases List.mem_filter.1 hr with ⟨h1, h2⟩
    exact ⟨h1, by simpa using h2⟩
  have hsum : ∀ r1 r2 rest, results.filter (fun r => r.note_path == p) = r1 :: r2 :: rest →
      1 < (dedupFirst [] ((r1 :: r2 :: rest).map (·.match_type))).length →
      ∃ m ∈ merge_results results, m.note_path = p ∧
        m.score = (((r1 :: r2 :: rest).map (·.score)).sum) * (3 / 2) := by
    intro r1 r2 rest hg hlen
    obtain ⟨hr1, hp1⟩ := hofgroup r1 (by rw [hg]; exact List.mem_cons_self _ _)
    have hmem := mem_merge_of_group results p r1 hr1 hp1
    rw [hg] at hmem
    refine ⟨mergeGroup p (r1 :: r2 :: rest), hmem, rfl, ?_⟩
    show (if 1 < (dedupFirst [] ((r1 :: r2 :: rest).map (·.match_type))).length
        then (((r1 :: r2 :: rest).map (·.score)).sum) * (3 / 2)
        else ((r1 :: r2 :: rest).map (·.score)).sum) = _
    rw [if_pos hlen]
  refine ⟨?_, hsum, ?_⟩
  · intro r hg
    obtain ⟨hr1, hp1⟩ := hofgroup r (by rw [hg]; exact List.mem_cons_self _ _)
    have hmem := mem_merge_of_group results p r hr1 hp1
    rw [hg] at hmem
    exact hmem
  · intro r1 r2 hg hty h1 h2
    have hlen : 1 < (dedupFirst [] ([r1, r2].map (·.match_type))).length := by
      have hne : ¬ r2.match_type ∈ [r1.match_type] := by
        simp only [List.mem_singleton]
        exact fun e => hty e.symm
      simp only [List.map_cons, List.map_nil]
      unfold dedupFirst
      rw [if_neg (by simp)]
      unfold dedupFirst
      rw [if_neg hne]
      simp
    rcases hsum r1 r2 [] hg hlen with ⟨m, hm, hmp, hms⟩
    refine ⟨m, hm, hmp, ?_⟩
    rw [hms]
    have hmax : max r1.score r2.score < r1.score + r2.score :=
      max_lt (by linarith) (by linarith)
    have hsum2 : (([r1, r2].map (·.score)).sum) = r1.score + r2.score := by
      simp
    rw [hsum2]
    nlinarith [hmax, h1, h2]

/-- Witness for C7: `X.md` is hit by the text strategy (score 2) and the
path strategy (score 5); the merged result strictly beats the stronger
score 5. -/
theorem merge_results_cross_strategy_boost_witness :
    ∃ m ∈ merge_results [srText, srPath], m.note_path = "X.md" ∧
      max srText.score srPath.score < m.score :=
  (merge_results_cross_strategy_boost [srText, srPath] "X.md").2.2 srText srPath
    (by decide) (by decide) (by with_unfolding_all decide) (by with_unfolding_all decide)

/-! ### Related-notes lemmas -/

theorem dedupRelated_not_in_seen :
    ∀ (l : List RelItem) (seen : List String) (i : RelItem),
      i ∈ dedupRelated l seen → ¬ i.path ∈ seen := by
  intro l
  induction l with
  | nil => intro seen i h; cases h
  | cons item rest ih =>
    intro seen i h
    unfold dedupRelated at h
    by_cases hmem : item.path ∈ seen
    · rw [if_pos hmem] at h
      exact ih seen i h
    · rw [if_neg hmem] at h
      rcases List.mem_cons.1 h with h1 | h1
      · subst h1
        exact hmem
      · intro hcon
        exact ih (item.path :: seen) i h1 (List.mem_cons_of_mem _ hcon)

theorem dedupRelated_paths_nodup :
    ∀ (l : List RelItem) (seen : List String),
      ((dedupRelated l seen).map (·.path)).Nodup := by
  intro l
  induction l with
  | nil => intro seen; exact List.nodup_nil
  | cons item rest ih =>
    intro seen
    unfold dedupRelated
    by_cases hmem : item.path ∈ seen
    · rw [if_pos hmem]
      exact ih seen
    · rw [if_neg hmem]
      rw [List.map_cons, List.nodup_cons]
      refine ⟨?_, ih (item.path :: seen)⟩
      intro hcon
      rcases List.mem_map.1 hcon with ⟨j, hj, he⟩
      exact absurd (he ▸ List.mem_cons_self item.path seen)
        (dedupRelated_not_in_seen rest (item.path :: seen) j hj)

theorem scoreRelatedNotes_paths (graph : KnowledgeGraph) (node : GraphNode)
    (l : List RelItem) :
    (scoreRelatedNotes graph node l).map (·.path) = l.map (·.path) := by
  unfold scoreRelatedNotes
  rw [List.map_map]
  apply List.map_congr_left
  intro i _
  show (match dictLookup graph.nodes i.path with
    | none => i
    | some related_node => _).path = i.path
  cases dictLookup graph.nodes i.path <;> rfl

theorem sorted_take_props (scored : List RelItem) (limit : Nat) (note_path : String)
    (hnodup : (scored.map (·.path)).Nodup)
    (hnoorigin : ∀ i ∈ scored, ¬ i.path = note_path) :
    (∀ i ∈ (List.insertionSort relScoreRel scored).take limit, ¬ i.path = note_path) ∧
    (((List.insertionSort relScoreRel scored).take limit).map (·.path)).Nodup ∧
    List.Sorted relScoreRel ((List.insertionSort relScoreRel scored).take limit) ∧
    ((List.insertionSort relScoreRel scored).take limit).length ≤ limit := by
  have hperm := List.perm_insertionSort relScoreRel scored
  have hsorted := List.sorted_insertionSort relScoreRel scored
  refine ⟨?_, ?_, ?_, ?_⟩
  · intro i hi
    exact hnoorigin i (hperm.mem_iff.1 (List.mem_of_mem_take hi))
  · have h1 : ((List.insertionSort relScoreRel scored).map (·.path)).Nodup :=
      ((hperm.map (·.path)).nodup_iff).2 hnodup
    exact List.Nodup.sublist (List.Sublist.map _ (List.take_sublist _ _)) h1
  · exact List.Pairwise.sublist (List.take_sublist _ _) hsorted
  · exact List.length_take_le _ _

/-- C8: for every graph, origin path and limit, the related-notes list never
contains the origin, holds each candidate path at most once (the dedup loop
keeps the first occurrence in the order direct / cluster / structurally
similar / tag-similar), is sorted by descending score, and is no longer than
the requested limit. -/
theorem find_related_notes_properties (graph : KnowledgeGraph)
    (note_path : String) (limit : Nat) :
    (∀ i ∈ find_related_notes graph note_path limit, ¬ i.path = note_path) ∧
    ((find_related_notes graph note_path limit).map (·.path)).Nodup ∧
    List.Sorted relScoreRel (find_related_notes graph note_path limit) ∧
    (find_related_notes graph note_path limit).length ≤ limit := by
  cases hl : dictLookup graph.nodes note_path with
  | none =>
    have he : find_related_notes graph note_path limit = [] := by
      unfold find_related_notes
      rw [hl]
    rw [he]
    simp
  | some node =>
    have he : find_related_notes graph note_path limit =
        (List.insertionSort relScoreRel
          (scoreRelatedNotes graph node
            (dedupRelated
              (findDirectConnections graph node ++ findClusterMembers graph node ++
                findStructurallySimilar graph node ++ findTagSimilar graph node)
              [note_path]))).take limit := by
      unfold find_related_notes
      rw [hl]
    rw [he]
    apply sorted_take_props
    · rw [scoreRelatedNotes_paths]
      exact dedupRelated_paths_nodup _ _
    · intro i hi
      have hpath : i.path ∈ (scoreRelatedNotes graph node
          (dedupRelated
            (findDirectConnections graph node ++ findClusterMembers graph node ++
              findStructurallySimilar graph node ++ findTagSimilar graph node)
            [note_path])).map (·.path) :=
        List.mem_map_of_mem _ hi
      rw [scoreRelatedNotes_paths] at hpath
      rcases List.mem_map.1 hpath with ⟨i0, hi0, he2⟩
      intro hcon
      apply dedupRelated_not_in_seen _ _ i0 hi0
      rw [he2, hcon]
      exact List.mem_cons_self _ _

/-- Witness for C8 on the concrete graph `graphAB`: the related list for
`R.md` has duplicate-free paths, respects the limit, and its member
`relBval` is not the origin. -/
theorem find_related_notes_properties_witness :
    ((find_related_notes graphAB "R.md" 20).map (·.path)).Nodup ∧
    (find_related_notes graphAB "R.md" 20).length ≤ 20 ∧
    ¬ relBval.path = "R.md" :=
  ⟨(find_related_notes_properties graphAB "R.md" 20).2.1,
   (find_related_notes_properties graphAB "R.md" 20).2.2.2,
   (find_related_notes_properties graphAB "R.md" 20).1 relBval
     (by with_unfolding_all decide)⟩

set_option maxRecDepth 10000 in
/-- C9 (code bug): `_extract_links` passes the match's offsets *within its
line* to `_extract_context`, which slices the whole body at those offsets.
For `contentC` (a 110-character first line, then `[[b]] end`), the one
extracted link's recorded context is the context at body offsets 0–5 (the
start of the document), not the context at the link's actual occurrence
(body offsets 111–116) that the claim — and the `Link.context` field's own
documentation ("surrounding sentence/paragraph") — describe. -/
theorem link_context_uses_line_offsets :
    (extract_links contentC "s.md").map (fun l => (l.line_number, l.link_text, l.context)) =
      [(2, "b", extract_context contentC 0 5)] ∧
    ¬ extract_context contentC 0 5 = extract_context contentC 111 116 := by
  refine ⟨?_, ?_⟩ <;> with_unfolding_all decide
